import Mathlib

/-!
# Verification of the gitCleanCommit spell-check engine and input widget

A shallow embedding of `src/spellcheck.ts` (class `GitCleanSpellChecker`)
and of the interactive prompt widget (`SpellCheckPrompt`).  Strings are
modelled as `List Char`; the JavaScript regular expressions used by the
source are translated into explicit character scanners.
-/

set_option maxHeartbeats 1000000

abbrev Str := List Char

/-- JS `[a-zA-Z]` (the character class of the word-extraction regex). -/
def isAlphaChar (c : Char) : Bool :=
  (65 ≤ c.toNat && c.toNat ≤ 90) || (97 ≤ c.toNat && c.toNat ≤ 122)

/-- JS `\\d` / `[0-9]`. -/
def isDigitChar (c : Char) : Bool :=
  48 ≤ c.toNat && c.toNat ≤ 57

/-- JS `\\w` (word character, as used by the `\\b` boundary assertion):
`[A-Za-z0-9_]`. -/
def isWordChar (c : Char) : Bool :=
  isAlphaChar c || isDigitChar c || c == '_'

/-- `String.prototype.toLowerCase` restricted to ASCII (all words the
engine handles are ASCII-alphabetic). -/
def toLowerChar (c : Char) : Char :=
  if 65 ≤ c.toNat && c.toNat ≤ 90 then Char.ofNat (c.toNat + 32) else c

def lowerStr (w : Str) : Str := w.map toLowerChar

/-- One match of the word-extraction regex: the matched word together with
its start offset and (exclusive) stop offset in the scanned string.
(The source calls the stop offset `end`, a keyword in Lean.) -/
structure WordOcc where
  word : Str
  start : Nat
  stop : Nat
deriving DecidableEq, Repr

/-- `position` field of a `SpellCheckResult` (`{start, end}` in the
source; `end` is a Lean keyword, renamed `stop`). -/
structure Position where
  start : Nat
  stop : Nat
deriving DecidableEq, Repr

/-- `SpellCheckResult` of `src/spellcheck.ts`. -/
structure SpellCheckResult where
  word : Str
  suggestions : List Str
  isCorrect : Bool
  position : Position
deriving DecidableEq, Repr

/-- Scanner realising the repeated-`exec` loop of
`extractWords`\'s regex `/\\b[a-zA-Z]+\\b/g`: `pos` is the offset of the
head of `cs` in the whole string and `prevW` records whether the
character just before `cs` is a word character (`false` at offset 0).
A match starts at an alphabetic character preceded by a non-word
character (the leading `\\b`), extends over the maximal alphabetic run
(greedy `[a-zA-Z]+`), and requires the following character to be a
non-word character or the end of input (the trailing `\\b`; a digit or
underscore right after the run makes the whole candidate fail, with no
shorter backtracked match possible).  After handling a run the scan
continues one character at a time with `prevW = true`, which skips the
remaining characters of the run without emitting anything — the same
positions the regex engine's `lastIndex` jump would skip. -/
def scanWords : Str → Nat → Bool → List WordOcc
  | [], _, _ => []
  | c :: rest, pos, prevW =>
    if isAlphaChar c && !prevW then
      let run := c :: List.takeWhile isAlphaChar rest
      let after := List.dropWhile isAlphaChar rest
      let ok : Bool := match after with
        | [] => true
        | d :: _ => !isWordChar d
      let tail := scanWords rest (pos + 1) true
      if ok then ⟨run, pos, pos + run.length⟩ :: tail else tail
    else
      scanWords rest (pos + 1) (isWordChar c)

/-- `GitCleanSpellChecker.extractWords`. -/
def extractWords (text : Str) : List WordOcc :=
  scanWords text 0 false

/-- JS `/^\\d+$/.test(word)`. -/
def isNumericWord (w : Str) : Bool :=
  !w.isEmpty && w.all isDigitChar

/-- JS `/^[a-z]$/i.test(word)`. -/
def isSingleLetter (w : Str) : Bool :=
  match w with
  | [c] => isAlphaChar c
  | _ => false

/-- The opaque dictionary backend (`typo-js` in the source): `check`
reports whether a word is known, `suggest` returns candidate
corrections. -/
structure Dict where
  check : Str → Bool
  suggest : Str → List Str

/-- `GitCleanSpellChecker.TECHNICAL_WORDS` (listed in source order;
the JS `Set` deduplicates, membership below is the same). -/
def TECHNICAL_WORDS : List Str := [
  "api".toList,
  "cli".toList,
  "ui".toList,
  "ux".toList,
  "dom".toList,
  "json".toList,
  "xml".toList,
  "html".toList,
  "css".toList,
  "js".toList,
  "ts".toList,
  "npm".toList,
  "yarn".toList,
  "pnpm".toList,
  "webpack".toList,
  "vite".toList,
  "rollup".toList,
  "babel".toList,
  "eslint".toList,
  "prettier".toList,
  "typescript".toList,
  "javascript".toList,
  "node".toList,
  "nodejs".toList,
  "react".toList,
  "vue".toList,
  "angular".toList,
  "svelte".toList,
  "scss".toList,
  "sass".toList,
  "less".toList,
  "tailwind".toList,
  "bootstrap".toList,
  "css3".toList,
  "html5".toList,
  "jsx".toList,
  "tsx".toList,
  "git".toList,
  "github".toList,
  "gitlab".toList,
  "bitbucket".toList,
  "commit".toList,
  "push".toList,
  "pull".toList,
  "merge".toList,
  "rebase".toList,
  "checkout".toList,
  "branch".toList,
  "tag".toList,
  "stash".toList,
  "clone".toList,
  "fork".toList,
  "upstream".toList,
  "origin".toList,
  "remote".toList,
  "gitignore".toList,
  "gitconfig".toList,
  "gitflow".toList,
  "pr".toList,
  "mr".toList,
  "repo".toList,
  "repository".toList,
  "submodule".toList,
  "workflow".toList,
  "actions".toList,
  "hooks".toList,
  "changelog".toList,
  "semver".toList,
  "docker".toList,
  "kubernetes".toList,
  "k8s".toList,
  "aws".toList,
  "azure".toList,
  "gcp".toList,
  "vercel".toList,
  "netlify".toList,
  "heroku".toList,
  "ci".toList,
  "cd".toList,
  "devops".toList,
  "oauth".toList,
  "jwt".toList,
  "cors".toList,
  "csrf".toList,
  "ssl".toList,
  "tls".toList,
  "nginx".toList,
  "apache".toList,
  "kubernetes".toList,
  "helm".toList,
  "terraform".toList,
  "ansible".toList,
  "jenkins".toList,
  "http".toList,
  "https".toList,
  "tcp".toList,
  "udp".toList,
  "ssh".toList,
  "ftp".toList,
  "smtp".toList,
  "pop3".toList,
  "imap".toList,
  "dns".toList,
  "url".toList,
  "uri".toList,
  "uuid".toList,
  "regex".toList,
  "websocket".toList,
  "graphql".toList,
  "rest".toList,
  "soap".toList,
  "grpc".toList,
  "sql".toList,
  "nosql".toList,
  "mongodb".toList,
  "mysql".toList,
  "postgresql".toList,
  "sqlite".toList,
  "redis".toList,
  "elasticsearch".toList,
  "firebase".toList,
  "supabase".toList,
  "prisma".toList,
  "orm".toList,
  "crud".toList,
  "db".toList,
  "microservices".toList,
  "monolith".toList,
  "serverless".toList,
  "jamstack".toList,
  "spa".toList,
  "ssr".toList,
  "ssg".toList,
  "pwa".toList,
  "mvc".toList,
  "mvp".toList,
  "mvvm".toList,
  "api".toList,
  "sdk".toList,
  "cli".toList,
  "gui".toList,
  "microservice".toList,
  "blockchain".toList,
  "cryptocurrency".toList,
  "ai".toList,
  "ml".toList,
  "nlp".toList,
  "iot".toList,
  "ar".toList,
  "vr".toList,
  "refactor".toList,
  "refactoring".toList,
  "optimization".toList,
  "minification".toList,
  "bundling".toList,
  "transpilation".toList,
  "polyfill".toList,
  "shim".toList,
  "middleware".toList,
  "plugin".toList,
  "addon".toList,
  "md".toList,
  "txt".toList,
  "log".toList,
  "yml".toList,
  "yaml".toList,
  "toml".toList,
  "ini".toList,
  "cfg".toList,
  "conf".toList,
  "env".toList,
  "dockerfile".toList,
  "makefile".toList,
  "rakefile".toList,
  "gemfile".toList,
  "procfile".toList,
  "lockfile".toList,
  "config".toList,
  "env".toList,
  "prod".toList,
  "dev".toList,
  "staging".toList,
  "localhost".toList,
  "async".toList,
  "await".toList,
  "promise".toList,
  "callback".toList,
  "event".toList,
  "listener".toList,
  "handler".toList,
  "component".toList,
  "module".toList,
  "package".toList,
  "library".toList,
  "framework".toList,
  "boilerplate".toList,
  "template".toList,
  "scaffold".toList,
  "generator".toList,
  "linter".toList,
  "formatter".toList,
  "transpiler".toList,
  "compiler".toList,
  "app".toList,
  "db".toList,
  "auth".toList,
  "util".toList,
  "utils".toList,
  "lib".toList,
  "libs".toList,
  "src".toList,
  "dist".toList,
  "build".toList,
  "bin".toList,
  "test".toList,
  "spec".toList,
  "mock".toList,
  "stub".toList,
  "tmp".toList,
  "temp".toList,
  "www".toList,
  "admin".toList,
  "user".toList,
  "users".toList,
  "client".toList,
  "server".toList,
  "backend".toList,
  "frontend".toList,
  "fullstack".toList,
  "deployment".toList,
  "infrastructure".toList,
  "monitoring".toList,
  "logging".toList,
  "analytics".toList,
  "metrics".toList,
  "dashboard".toList,
  "sidebar".toList,
  "navbar".toList,
  "footer".toList,
  "header".toList,
  "modal".toList,
  "popup".toList,
  "tooltip".toList,
  "dropdown".toList,
  "carousel".toList,
  "accordion".toList,
  "tabs".toList,
  "pagination".toList,
  "breadcrumb".toList,
  "stepper".toList,
  "wizard".toList,
  "homebrew".toList,
  "chocolatey".toList,
  "apt".toList,
  "yum".toList,
  "pacman".toList,
  "conda".toList,
  "pip".toList,
  "gem".toList,
  "composer".toList,
  "maven".toList,
  "gradle".toList,
  "nuget".toList,
  "cargo".toList,
  "go".toList,
  "jest".toList,
  "mocha".toList,
  "chai".toList,
  "cypress".toList,
  "selenium".toList,
  "puppeteer".toList,
  "playwright".toList,
  "vitest".toList,
  "karma".toList,
  "jasmine".toList,
  "enzyme".toList,
  "testing".toList,
  "unittest".toList,
  "e2e".toList]

/-- `GitCleanSpellChecker.COMMON_TYPOS` (no key occurs twice, so the
first-match lookup below agrees with the JS `Map`). -/
def COMMON_TYPOS : List (Str × Str) := [
  ("teh".toList, "the".toList),
  ("hte".toList, "the".toList),
  ("adn".toList, "and".toList),
  ("nad".toList, "and".toList),
  ("recieve".toList, "receive".toList),
  ("recieved".toList, "received".toList),
  ("recieving".toList, "receiving".toList),
  ("seperate".toList, "separate".toList),
  ("seperated".toList, "separated".toList),
  ("seperately".toList, "separately".toList),
  ("definately".toList, "definitely".toList),
  ("occured".toList, "occurred".toList),
  ("occuring".toList, "occurring".toList),
  ("perfomance".toList, "performance".toList),
  ("perfom".toList, "perform".toList),
  ("sucessful".toList, "successful".toList),
  ("sucessfully".toList, "successfully".toList),
  ("acording".toList, "according".toList),
  ("adress".toList, "address".toList),
  ("begining".toList, "beginning".toList),
  ("beleive".toList, "believe".toList),
  ("buiness".toList, "business".toList),
  ("diference".toList, "difference".toList),
  ("enviroment".toList, "environment".toList),
  ("existance".toList, "existence".toList),
  ("finaly".toList, "finally".toList),
  ("foriegn".toList, "foreign".toList),
  ("goverment".toList, "government".toList),
  ("gaurd".toList, "guard".toList),
  ("happend".toList, "happened".toList),
  ("immediatly".toList, "immediately".toList),
  ("independant".toList, "independent".toList),
  ("intrested".toList, "interested".toList),
  ("libary".toList, "library".toList),
  ("maintainance".toList, "maintenance".toList),
  ("occassion".toList, "occasion".toList),
  ("prefered".toList, "preferred".toList),
  ("reccomend".toList, "recommend".toList),
  ("thier".toList, "their".toList),
  ("truely".toList, "truly".toList),
  ("usualy".toList, "usually".toList),
  ("wierd".toList, "weird".toList),
  ("calender".toList, "calendar".toList),
  ("accomodate".toList, "accommodate".toList),
  ("achive".toList, "achieve".toList),
  ("achived".toList, "achieved".toList),
  ("commited".toList, "committed".toList),
  ("commiting".toList, "committing".toList),
  ("committ".toList, "commit".toList),
  ("implmentation".toList, "implementation".toList),
  ("implimentation".toList, "implementation".toList),
  ("documention".toList, "documentation".toList),
  ("confguration".toList, "configuration".toList),
  ("configuraton".toList, "configuration".toList),
  ("functionallity".toList, "functionality".toList),
  ("conditon".toList, "condition".toList),
  ("lenght".toList, "length".toList),
  ("widht".toList, "width".toList),
  ("heigth".toList, "height".toList),
  ("compatability".toList, "compatibility".toList),
  ("dependancy".toList, "dependency".toList),
  ("optmize".toList, "optimize".toList),
  ("optmized".toList, "optimized".toList),
  ("optmization".toList, "optimization".toList),
  ("intialize".toList, "initialize".toList),
  ("intializing".toList, "initializing".toList),
  ("intial".toList, "initial".toList),
  ("retrun".toList, "return".toList),
  ("reutrn".toList, "return".toList),
  ("funciton".toList, "function".toList),
  ("fucntion".toList, "function".toList),
  ("fucntions".toList, "functions".toList),
  ("valriable".toList, "variable".toList),
  ("varaible".toList, "variable".toList),
  ("varibles".toList, "variables".toList),
  ("methdo".toList, "method".toList),
  ("methos".toList, "method".toList),
  ("classs".toList, "class".toList),
  ("clases".toList, "classes".toList),
  ("contructor".toList, "constructor".toList),
  ("contsructor".toList, "constructor".toList),
  ("compnent".toList, "component".toList),
  ("componnet".toList, "component".toList),
  ("compoent".toList, "component".toList),
  ("reponse".toList, "response".toList),
  ("respone".toList, "response".toList),
  ("reqeust".toList, "request".toList),
  ("requst".toList, "request".toList),
  ("databse".toList, "database".toList),
  ("datbase".toList, "database".toList),
  ("serivce".toList, "service".toList),
  ("servie".toList, "service".toList),
  ("handlr".toList, "handler".toList),
  ("handleer".toList, "handler".toList),
  ("listner".toList, "listener".toList),
  ("lsitener".toList, "listener".toList),
  ("connecton".toList, "connection".toList),
  ("conection".toList, "connection".toList),
  ("authetication".toList, "authentication".toList),
  ("athentication".toList, "authentication".toList),
  ("validaton".toList, "validation".toList),
  ("valiation".toList, "validation".toList),
  ("authentification".toList, "authentication".toList),
  ("authroization".toList, "authorization".toList),
  ("bugfixes".toList, "bug fixes".toList),
  ("hotfixes".toList, "hot fixes".toList),
  ("updat".toList, "update".toList),
  ("updte".toList, "update".toList),
  ("udpate".toList, "update".toList),
  ("tsting".toList, "testing".toList),
  ("tesitng".toList, "testing".toList),
  ("testig".toList, "testing".toList)]

def typoLookup (w : Str) : Option Str :=
  List.lookup w COMMON_TYPOS

/-- The per-word body of the `for` loop of
`GitCleanSpellChecker.checkSpelling`: `none` when the loop `continue`s
without pushing a result. -/
def checkWord (dict : Option Dict) (o : WordOcc) : Option SpellCheckResult :=
  let lowerWord := lowerStr o.word
  if o.word.length ≤ 2 || isNumericWord o.word || isSingleLetter o.word then
    none
  else if TECHNICAL_WORDS.contains lowerWord then
    none
  else
    match typoLookup lowerWord with
    | some corr => some ⟨o.word, [corr], false, ⟨o.start, o.stop⟩⟩
    | none =>
      match dict with
      | some d =>
        if d.check o.word then none
        else some ⟨o.word, (d.suggest o.word).take 3, false, ⟨o.start, o.stop⟩⟩
      | none => none

/-- `GitCleanSpellChecker.checkSpelling`, parameterized by the (possibly
absent) dictionary. -/
def checkSpelling (dict : Option Dict) (message : Str) : List SpellCheckResult :=
  (extractWords message).filterMap (checkWord dict)

/-- The decision `checkWord` makes about a word in typo-rule-only mode,
as a function of the word alone: `some correction` iff the word
survives the length/numeric/single-letter and allowlist filters and its
lowercase form is a typo-rule key. -/
def typoFlag (w : Str) : Option Str :=
  if w.length ≤ 2 || isNumericWord w || isSingleLetter w then none
  else if TECHNICAL_WORDS.contains (lowerStr w) then none
  else typoLookup (lowerStr w)

/-- `Array.prototype.sort` with the comparator
`(a, b) => b.position.start - a.position.start`: a stable sort
(ES2019) into descending start order, modelled as a stable insertion
sort ordered by "`a` may precede `b` iff the comparator is
non-positive". -/
def sortErrorsDesc (errors : List SpellCheckResult) : List SpellCheckResult :=
  errors.insertionSort (fun a b => b.position.start ≤ a.position.start)

/-- One replacement step of `GitCleanSpellChecker.autoCorrectText`:
`substring(0, start) + suggestions[0] + substring(end)`, skipped when
the finding has no suggestions. -/
def applyCorrection (res : Str) (e : SpellCheckResult) : Str :=
  match e.suggestions with
  | [] => res
  | s :: _ => res.take e.position.start ++ s ++ res.drop e.position.stop

/-- `GitCleanSpellChecker.autoCorrectText`. -/
def autoCorrectText (dict : Option Dict) (text : Str) : Str :=
  (sortErrorsDesc (checkSpelling dict text)).foldl applyCorrection text

/-- The styled replacement `"\x1b[31m\x1b[4m" + word + "\x1b[0m"` built by
`createSquigglyUnderline`. -/
def styleWord (w : Str) : Str :=
  "\x1b[31m\x1b[4m".toList ++ w ++ "\x1b[0m".toList

/-- One replacement step of the loop in `createSquigglyUnderline`. -/
def applyHighlight (res : Str) (e : SpellCheckResult) : Str :=
  res.take e.position.start ++ styleWord e.word ++ res.drop e.position.stop

/-- `GitCleanSpellChecker.createSquigglyUnderline` (display string). -/
def createSquigglyUnderline (text : Str) (errors : List SpellCheckResult) : Str :=
  if errors.length = 0 then text
  else (sortErrorsDesc errors).foldl applyHighlight text

/-- State of the caller's `errors` array after
`createSquigglyUnderline` returns: `Array.prototype.sort` sorts the
array in place, so unless the empty-array early return fires, the
caller's array is left in descending-start order. -/
def createSquigglyUnderlinePost (errors : List SpellCheckResult) : List SpellCheckResult :=
  if errors.length = 0 then errors else sortErrorsDesc errors

/-- The styled replacement `chalk.red.underline(word)`:
`"\x1b[31m\x1b[4m" + word + "\x1b[24m\x1b[39m"`. -/
def chalkRedUnderline (w : Str) : Str :=
  "\x1b[31m\x1b[4m".toList ++ w ++ "\x1b[24m\x1b[39m".toList

/-- One replacement step of the loop in
`SpellCheckPrompt.createDisplayText`. -/
def applyChalkHighlight (res : Str) (e : SpellCheckResult) : Str :=
  res.take e.position.start ++ chalkRedUnderline e.word ++ res.drop e.position.stop

/-- `SpellCheckPrompt.createDisplayText` (display string). -/
def createDisplayText (currentText : Str) (spellErrors : List SpellCheckResult) : Str :=
  if spellErrors.length = 0 then currentText
  else (sortErrorsDesc spellErrors).foldl applyChalkHighlight currentText

/-- State of the widget's `spellErrors` array after
`createDisplayText` returns (same in-place `Array.sort` as above). -/
def createDisplayTextPost (spellErrors : List SpellCheckResult) : List SpellCheckResult :=
  if spellErrors.length = 0 then spellErrors else sortErrorsDesc spellErrors

/-- Parameter characters of the ANSI-stripping regex
`/\x1b\[[0-9;]*m/g` used by the widget's `stripAnsi`. -/
def isParamChar (c : Char) : Bool :=
  isDigitChar c || c == ';'

/-- Scanner state while deleting ANSI matches: scanning normally, just
after an `ESC`, or inside `ESC [` with the parameter characters read so
far buffered (they must be re-emitted if the match fails). -/
inductive StripState where
  | normal
  | esc
  | params (ps : Str)

/-- The scan loop of the widget's `stripAnsi` regex replace
(`/\x1b\[[0-9;]*m/g` with the empty replacement): leftmost match first;
`[0-9;]*` is greedy and cannot backtrack into a successful match
because `m` is not a parameter character, and a failed partial match
is emitted verbatim (no other match can start inside it, since none of
its characters except a failing `ESC` is an `ESC`). -/
def stripRun : Str → StripState → Str
  | [], .normal => []
  | [], .esc => ['\x1b']
  | [], .params ps => '\x1b' :: '[' :: ps
  | c :: rest, .normal =>
    if c = '\x1b' then stripRun rest .esc
    else c :: stripRun rest .normal
  | c :: rest, .esc =>
    if c = '[' then stripRun rest (.params [])
    else if c = '\x1b' then '\x1b' :: stripRun rest .esc
    else '\x1b' :: c :: stripRun rest .normal
  | c :: rest, .params ps =>
    if isParamChar c then stripRun rest (.params (ps ++ [c]))
    else if c = 'm' then stripRun rest .normal
    else if c = '\x1b' then '\x1b' :: '[' :: ps ++ stripRun rest .esc
    else '\x1b' :: '[' :: ps ++ (c :: stripRun rest .normal)

/-- The widget's `stripAnsi`: delete every match of
`/\x1b\[[0-9;]*m/g`. -/
def stripAnsi (l : Str) : Str :=
  stripRun l .normal

/-- The static mutable state of `GitCleanSpellChecker`: the loaded
dictionary (`null` until a successful load) and the `isInitialized`
flag. -/
structure EngineState where
  dictionary : Option Dict
  isInitialized : Bool

/-- The state `GitCleanSpellChecker` starts in (`dictionary = null`,
`isInitialized = false`). -/
def initialEngineState : EngineState :=
  { dictionary := none, isInitialized := false }

/-- `GitCleanSpellChecker.initialize`, with the outcome of
`new Typo("en_US")` passed as `tryLoad`: on success the dictionary is
stored; on an exception the `catch` block leaves the dictionary `null`
but still marks the engine initialized (fallback mode). -/
def initEngine (tryLoad : Except String Dict) (st : EngineState) : EngineState :=
  if st.isInitialized then st
  else
    match tryLoad with
    | .ok d => { dictionary := some d, isInitialized := true }
    | .error _ => { dictionary := st.dictionary, isInitialized := true }

/-- Return type of `GitCleanSpellChecker.getSpellCheckStats`. -/
structure SpellCheckStats where
  isInitialized : Bool
  hasDictionary : Bool
  technicalWordsCount : Nat
  typoRulesCount : Nat
deriving DecidableEq

/-- `GitCleanSpellChecker.getSpellCheckStats` (the JS `Set.size` and
`Map.size` count distinct keys, hence the `eraseDups`). -/
def getSpellCheckStats (st : EngineState) : SpellCheckStats :=
  { isInitialized := st.isInitialized
    hasDictionary := st.dictionary.isSome
    technicalWordsCount := TECHNICAL_WORDS.eraseDups.length
    typoRulesCount := (COMMON_TYPOS.map Prod.fst).eraseDups.length }

/-- A dictionary backend whose operations may throw (the source calls
`this.dictionary.check` / `.suggest` without any `try`/`catch`, so an
exception there escapes from `checkSpelling`). -/
structure DictE where
  check : Str → Except String Bool
  suggest : Str → Except String (List Str)

/-- `checkWord` when the dictionary operations may throw. -/
def checkWordE (dict : Option DictE) (o : WordOcc) :
    Except String (Option SpellCheckResult) :=
  let lowerWord := lowerStr o.word
  if o.word.length ≤ 2 || isNumericWord o.word || isSingleLetter o.word then
    .ok none
  else if TECHNICAL_WORDS.contains lowerWord then
    .ok none
  else
    match typoLookup lowerWord with
    | some corr => .ok (some ⟨o.word, [corr], false, ⟨o.start, o.stop⟩⟩)
    | none =>
      match dict with
      | some d => do
        let isCorrect ← d.check o.word
        if isCorrect then pure none
        else do
          let suggestions ← d.suggest o.word
          pure (some ⟨o.word, suggestions.take 3, false, ⟨o.start, o.stop⟩⟩)
      | none => .ok none

/-- `GitCleanSpellChecker.checkSpelling` with a possibly-throwing
dictionary backend: the first exception escapes the word loop. -/
def checkSpellingE (dict : Option DictE) (message : Str) :
    Except String (List SpellCheckResult) :=
  (extractWords message).foldlM
    (fun acc o => do
      match ← checkWordE dict o with
      | some r => pure (acc ++ [r])
      | none => pure acc)
    []

/-- Status field of `SpellCheckPrompt` (`"pending"` / `"answered"`; an
Escape keypress terminates the process, modelled as `aborted`). -/
inductive PromptStatus
  | pending
  | answered
  | aborted
deriving DecidableEq

/-- The mutable state of a `SpellCheckPrompt` instance, instrumented
with the list of texts passed to `GitCleanSpellChecker.checkSpelling`
(`checkCalls`) and a render counter (`renders`). `timerArmed` models
whether `spellCheckTimeout` holds a scheduled, not-yet-fired and
not-yet-cleared timeout. -/
structure WidgetState where
  currentText : Str
  cursorPosition : Nat
  spellErrors : List SpellCheckResult
  status : PromptStatus
  timerArmed : Bool
  checkCalls : List Str
  renders : Nat
deriving DecidableEq

/-- State of a freshly constructed `SpellCheckPrompt`. -/
def initialWidgetState : WidgetState :=
  { currentText := []
    cursorPosition := 0
    spellErrors := []
    status := .pending
    timerArmed := false
    checkCalls := []
    renders := 0 }

/-- `SpellCheckPrompt.render` (early return when already answered;
otherwise repaints, counted here). -/
def renderW (st : WidgetState) : WidgetState :=
  if st.status = .answered then st else { st with renders := st.renders + 1 }

/-- `SpellCheckPrompt.performSpellCheck`: clear any pending timeout;
with empty text clear the findings immediately and schedule nothing;
otherwise (re-)arm the debounce timer.  The spell check itself runs
only when the timer later fires. -/
def performSpellCheck (st : WidgetState) : WidgetState :=
  let st := { st with timerArmed := false }
  if st.currentText.length = 0 then
    { st with spellErrors := [] }
  else
    { st with timerArmed := true }

/-- Key events recognised by the widget's keypress listener, plus the
debounce-timeout callback (`timerFire`).  `char c` is a printable
single-character keystroke (no ctrl/meta). -/
inductive KeyEvent
  | char (c : Char)
  | backspace
  | left
  | right
  | home
  | endKey
  | enter
  | escape
  | timerFire
deriving DecidableEq

/-- The body of the widget's keypress listener (attached only while the
status is `pending`), for one recognised key event.  `validate` is the
configured validator (`true` = accept).  The debounce-timeout callback
is not a keypress and is handled in `widgetStep`. -/
def widgetKeypress (validate : Str → Bool) (st : WidgetState) (ev : KeyEvent) :
    WidgetState :=
  match ev with
  | .enter =>
    let st := { st with timerArmed := false }
    if validate st.currentText then
      { st with status := .answered }
    else
      renderW { st with currentText := [], cursorPosition := 0, spellErrors := [] }
  | .escape => { st with timerArmed := false, status := .aborted }
  | .left =>
    if st.cursorPosition > 0 then
      renderW { st with cursorPosition := st.cursorPosition - 1 }
    else st
  | .right =>
    if st.cursorPosition < st.currentText.length then
      renderW { st with cursorPosition := st.cursorPosition + 1 }
    else st
  | .home => renderW { st with cursorPosition := 0 }
  | .endKey => renderW { st with cursorPosition := st.currentText.length }
  | .backspace =>
    let st :=
      if st.cursorPosition > 0 then
        { st with
          currentText := st.currentText.take (st.cursorPosition - 1) ++
            st.currentText.drop st.cursorPosition
          cursorPosition := st.cursorPosition - 1 }
      else st
    renderW (performSpellCheck st)
  | .char c =>
    let st := { st with
      currentText := st.currentText.take st.cursorPosition ++ [c] ++
        st.currentText.drop st.cursorPosition
      cursorPosition := st.cursorPosition + 1 }
    renderW (performSpellCheck st)
  | .timerFire => st

/-- One event step of `SpellCheckPrompt`.  `chk` is the engine call
`GitCleanSpellChecker.checkSpelling` (instrumented via `checkCalls`).
Keypress events reach the listener only while it is attached (status
`pending`); the timeout callback is not a keypress and runs whenever
the armed timer fires, reading `currentText` at fire time, storing the
findings, and re-rendering only if the status is still `pending`. -/
def widgetStep (chk : Str → List SpellCheckResult) (validate : Str → Bool)
    (st : WidgetState) (ev : KeyEvent) : WidgetState :=
  match ev with
  | .timerFire =>
    if st.timerArmed then
      let st := { st with
        timerArmed := false
        spellErrors := chk st.currentText
        checkCalls := st.checkCalls ++ [st.currentText] }
      if st.status = .pending then renderW st else st
    else st
  | e =>
    if st.status ≠ .pending then st
    else widgetKeypress validate st e

/-- Run the widget over a sequence of events. -/
def runWidget (chk : Str → List SpellCheckResult) (validate : Str → Bool)
    (st : WidgetState) (evs : List KeyEvent) : WidgetState :=
  evs.foldl (widgetStep chk validate) st

/-- The cursor movement emitted at the end of `SpellCheckPrompt.render`
(`up` rows, then `right` columns, or `left` columns on the same row; a
zero component emits no escape sequence). -/
structure CursorMove where
  up : Nat
  right : Nat
  left : Nat
deriving DecidableEq, Repr

/-- The cursor-repositioning computation at the end of
`SpellCheckPrompt.render`: `process.stdout.columns || 80` falls back to
80 when the width is unavailable or zero. -/
def computeCursorMove (promptLength textLength cursorPosition terminalWidth : Nat) :
    CursorMove :=
  let w := if terminalWidth = 0 then 80 else terminalWidth
  let cursorAbsolutePosition := promptLength + cursorPosition
  let endAbsolutePosition := promptLength + textLength
  let cursorLine := cursorAbsolutePosition / w
  let endLine := endAbsolutePosition / w
  let cursorColumn := cursorAbsolutePosition % w
  let endColumn := endAbsolutePosition % w
  if endLine > cursorLine then
    { up := endLine - cursorLine, right := cursorColumn, left := 0 }
  else if endColumn > cursorColumn then
    { up := 0, right := 0, left := endColumn - cursorColumn }
  else
    { up := 0, right := 0, left := 0 }

/-- Shifting the running offset shifts every reported span. -/
def shiftOcc (d : Nat) (o : WordOcc) : WordOcc :=
  ⟨o.word, o.start + d, o.stop + d⟩

/-- Modelled from the spec's tokenization sentence: `[s, e)` is a
maximal run of alphabetic characters of `t` (all characters in the
span alphabetic, and no alphabetic character immediately before or
after). -/
def isMaximalAlphaRun (t : Str) (s e : Nat) : Bool :=
  decide (s < e) && decide (e ≤ t.length) &&
  ((t.drop s).take (e - s)).all isAlphaChar &&
  (decide (s = 0) || !isAlphaChar (t.getD (s - 1) ' ')) &&
  (decide (e = t.length) || !isAlphaChar (t.getD e ' '))

/-- The runs `extractWords` actually reports: maximal alphabetic runs
whose neighbouring characters (when they exist) are not *word*
characters — a run bordered by a digit or underscore fails the regex's
`\b` assertions and is skipped entirely. -/
def isBoundedAlphaRun (t : Str) (s e : Nat) : Bool :=
  decide (s < e) && decide (e ≤ t.length) &&
  ((t.drop s).take (e - s)).all isAlphaChar &&
  (decide (s = 0) || !isWordChar (t.getD (s - 1) ' ')) &&
  (decide (e = t.length) || !isWordChar (t.getD e ' '))

/-- C9: for every prompt prefix length, text length, cursor index within
the text, and terminal width, the cursor-repositioning computation after
a render satisfies: the cursor's wrapped row is never below the end's
wrapped row; if it is strictly above, the emitted movement is that many
rows up followed by moving right by the cursor's column; if cursor and
end share a wrapped row, the movement is left by the column difference;
and if the cursor index equals the text length, no movement is
emitted. -/
theorem computeCursorMove_correct
    (promptLength textLength cursorPosition terminalWidth : Nat)
    (hc : cursorPosition ≤ textLength) :
    (promptLength + cursorPosition) / (if terminalWidth = 0 then 80 else terminalWidth) ≤
      (promptLength + textLength) / (if terminalWidth = 0 then 80 else terminalWidth) ∧
    ((promptLength + cursorPosition) / (if terminalWidth = 0 then 80 else terminalWidth) <
        (promptLength + textLength) / (if terminalWidth = 0 then 80 else terminalWidth) →
      computeCursorMove promptLength textLength cursorPosition terminalWidth =
        { up := (promptLength + textLength) / (if terminalWidth = 0 then 80 else terminalWidth) -
            (promptLength + cursorPosition) / (if terminalWidth = 0 then 80 else terminalWidth)
          right := (promptLength + cursorPosition) % (if terminalWidth = 0 then 80 else terminalWidth)
          left := 0 }) ∧
    ((promptLength + cursorPosition) / (if terminalWidth = 0 then 80 else terminalWidth) =
        (promptLength + textLength) / (if terminalWidth = 0 then 80 else terminalWidth) →
      computeCursorMove promptLength textLength cursorPosition terminalWidth =
        { up := 0
          right := 0
          left := (promptLength + textLength) % (if terminalWidth = 0 then 80 else terminalWidth) -
            (promptLength + cursorPosition) % (if terminalWidth = 0 then 80 else terminalWidth) }) ∧
    (cursorPosition = textLength →
      computeCursorMove promptLength textLength cursorPosition terminalWidth =
        { up := 0, right := 0, left := 0 }) := by
  set w := if terminalWidth = 0 then 80 else terminalWidth with hw
  have hw0 : 0 < w := by
    rw [hw]; split <;> omega
  have hab : promptLength + cursorPosition ≤ promptLength + textLength := by omega
  have hle : (promptLength + cursorPosition) / w ≤ (promptLength + textLength) / w :=
    Nat.div_le_div_right hab
  have ha := Nat.div_add_mod (promptLength + cursorPosition) w
  have hb := Nat.div_add_mod (promptLength + textLength) w
  have hma : (promptLength + cursorPosition) % w < w := Nat.mod_lt _ hw0
  have hmb : (promptLength + textLength) % w < w := Nat.mod_lt _ hw0
  refine ⟨hle, ?_, ?_, ?_⟩
  · intro hlt
    unfold computeCursorMove
    rw [← hw]
    simp only [if_pos hlt]
  · intro heq
    unfold computeCursorMove
    rw [← hw]
    have hnlt : ¬ ((promptLength + cursorPosition) / w < (promptLength + textLength) / w) := by
      omega
    simp only [if_neg hnlt]
    have hqe : w * ((promptLength + cursorPosition) / w) =
        w * ((promptLength + textLength) / w) := by rw [heq]
    have hcc : (promptLength + cursorPosition) % w ≤ (promptLength + textLength) % w := by
      omega
    by_cases h2 : (promptLength + cursorPosition) % w < (promptLength + textLength) % w
    · simp only [if_pos h2]
    · simp only [if_neg h2]
      have : (promptLength + textLength) % w - (promptLength + cursorPosition) % w = 0 := by
        omega
      rw [this]
  · intro hct
    subst hct
    unfold computeCursorMove
    rw [← hw]
    simp

/-- Witness for `computeCursorMove_correct`: prompt length 3, text
length 5, cursor index 2, terminal width 4 (the cursor sits one wrapped
row above the end of the text). -/
theorem computeCursorMove_correct_witness :
    computeCursorMove 3 5 2 4 = { up := 1, right := 1, left := 0 } :=
  (computeCursorMove_correct 3 5 2 4 (by decide)).2.1 (by decide)

/-- The widget never holds an armed debounce timer outside the
`pending` state (Enter and Escape clear the timeout before the status
changes), preserved by every event step. -/
theorem widgetStep_timer_pending (chk : Str → List SpellCheckResult)
    (validate : Str → Bool) (st : WidgetState) (ev : KeyEvent)
    (hP : st.timerArmed = true → st.status = .pending) :
    (widgetStep chk validate st ev).timerArmed = true →
    (widgetStep chk validate st ev).status = .pending := by
  cases ev <;>
    simp only [widgetStep, widgetKeypress, renderW, performSpellCheck] <;>
    split_ifs <;> simp_all

theorem runWidget_timer_pending (chk : Str → List SpellCheckResult)
    (validate : Str → Bool) (evs : List KeyEvent) (st : WidgetState)
    (hP : st.timerArmed = true → st.status = .pending) :
    (runWidget chk validate st evs).timerArmed = true →
    (runWidget chk validate st evs).status = .pending := by
  induction evs generalizing st with
  | nil => exact hP
  | cons ev evs ih =>
    exact ih _ (widgetStep_timer_pending chk validate st ev hP)

/-- C7: when the debounce timer fires, the widget re-runs the engine's
check against the current text at fire time (`currentText` is read
inside the callback, not captured when the timer was scheduled), stores
the findings and re-renders — and an armed timer only ever exists while
the widget is still `pending`, so findings are only ever replaced in
the `pending` state; and when several keystrokes occur within one
debounce window followed by a pause, exactly one check call occurs,
against the final text (`"api"` for keystrokes `a`, `p`, `i`). -/
theorem debounce_fire_uses_current_text
    (chk : Str → List SpellCheckResult) (validate : Str → Bool) :
    (∀ st : WidgetState, st.timerArmed = true →
      (widgetStep chk validate st .timerFire).spellErrors = chk st.currentText ∧
      (widgetStep chk validate st .timerFire).checkCalls =
        st.checkCalls ++ [st.currentText] ∧
      (widgetStep chk validate st .timerFire).renders =
        st.renders + (if st.status = .pending then 1 else 0)) ∧
    (∀ evs : List KeyEvent,
      (runWidget chk validate initialWidgetState evs).timerArmed = true →
      (runWidget chk validate initialWidgetState evs).status = .pending) ∧
    ((runWidget chk validate initialWidgetState
        [.char 'a', .char 'p', .char 'i', .timerFire]).checkCalls =
      ["api".toList] ∧
     (runWidget chk validate initialWidgetState
        [.char 'a', .char 'p', .char 'i', .timerFire]).spellErrors =
      chk "api".toList) := by
  refine ⟨?_, ?_, ?_⟩
  · intro st hArmed
    simp only [widgetStep, renderW, hArmed, if_true]
    split_ifs <;> simp_all
  · intro evs
    exact runWidget_timer_pending chk validate evs _ (by simp [initialWidgetState])
  · simp [runWidget, widgetStep, widgetKeypress, performSpellCheck, renderW,
      initialWidgetState]

/-- Witness for `debounce_fire_uses_current_text`: a concrete armed
widget state whose timer fires records exactly one check call against
the text at fire time. -/
theorem debounce_fire_uses_current_text_witness :
    (widgetStep (fun _ => []) (fun _ => true)
        { currentText := "api".toList, cursorPosition := 3, spellErrors := [],
          status := .pending, timerArmed := true, checkCalls := [], renders := 0 }
        .timerFire).checkCalls = ["api".toList] := by
  have h := (debounce_fire_uses_current_text (fun _ => []) (fun _ => true)).1
      { currentText := "api".toList, cursorPosition := 3, spellErrors := [],
        status := .pending, timerArmed := true, checkCalls := [], renders := 0 } rfl
  simpa using h.2.1

/-- `checkWordE` with no dictionary backend never throws and agrees
with the pure `checkWord` (the only fallible calls are the dictionary
ones, which are skipped when `this.dictionary` is `null`). -/
theorem checkWordE_none (o : WordOcc) :
    checkWordE none o = .ok (checkWord none o) := by
  simp only [checkWordE, checkWord]
  split_ifs <;> try rfl
  all_goals cases typoLookup (lowerStr o.word) <;> rfl

/-- `checkSpelling` with no dictionary backend never throws. -/
theorem checkSpellingE_none (msg : Str) :
    checkSpellingE none msg = .ok (checkSpelling none msg) := by
  unfold checkSpellingE checkSpelling
  generalize extractWords msg = l
  suffices h : ∀ acc : List SpellCheckResult, l.foldlM (fun acc o => do
      match ← checkWordE none o with
      | some r => pure (acc ++ [r])
      | none => pure acc) acc = .ok (acc ++ l.filterMap (checkWord none)) by
    simpa using h []
  induction l with
  | nil =>
    intro acc
    rw [List.foldlM_nil, List.filterMap_nil, List.append_nil]
    rfl
  | cons o l ih =>
    intro acc
    rw [List.foldlM_cons, checkWordE_none]
    cases h : checkWord none o with
    | none =>
      rw [List.filterMap_cons, h]
      exact ih acc
    | some r =>
      rw [List.filterMap_cons, h]
      rw [show acc ++ r :: List.filterMap (checkWord none) l =
        (acc ++ [r]) ++ List.filterMap (checkWord none) l by simp]
      exact ih (acc ++ [r])

/-- In typo-rule-only mode every finding comes from the typo mapping:
a lookup hit on the lowercased word, with that single suggestion. -/
theorem checkSpelling_none_typo_only (t : Str) (r : SpellCheckResult)
    (hr : r ∈ checkSpelling none t) :
    ∃ c, typoLookup (lowerStr r.word) = some c ∧ r.suggestions = [c] ∧
      r.isCorrect = false := by
  rw [checkSpelling, List.mem_filterMap] at hr
  obtain ⟨o, _, ho⟩ := hr
  unfold checkWord at ho
  by_cases h1 : (decide (o.word.length ≤ 2) || isNumericWord o.word ||
      isSingleLetter o.word) = true
  · rw [if_pos h1] at ho; cases ho
  · rw [if_neg h1] at ho
    by_cases h2 : TECHNICAL_WORDS.contains (lowerStr o.word) = true
    · rw [if_pos h2] at ho; cases ho
    · rw [if_neg h2] at ho
      cases hcorr : typoLookup (lowerStr o.word) with
      | none => rw [hcorr] at ho; cases ho
      | some corr =>
        rw [hcorr] at ho
        cases ho
        exact ⟨corr, hcorr, rfl, rfl⟩

/-- C8: failure to initialize the general dictionary is non-fatal: the
engine still marks itself initialized and keeps no dictionary; the
condition is surfaced through the `hasDictionary` flag of the stats
operation (which reports exactly whether a dictionary is present); in
this typo-rule-only mode `check` never throws, and every finding it
returns comes from the TypoRule mapping alone. -/
theorem dictionary_failure_nonfatal :
    (∀ e : String, initEngine (.error e) initialEngineState =
      { dictionary := none, isInitialized := true }) ∧
    (∀ st : EngineState,
      (getSpellCheckStats st).hasDictionary = st.dictionary.isSome) ∧
    (∀ t : Str, checkSpellingE none t = .ok (checkSpelling none t)) ∧
    (∀ t : Str, ∀ r ∈ checkSpelling none t,
      ∃ c, typoLookup (lowerStr r.word) = some c ∧ r.suggestions = [c] ∧
        r.isCorrect = false) := by
  refine ⟨fun e => rfl, fun st => rfl, checkSpellingE_none, ?_⟩
  intro t r hr
  exact checkSpelling_none_typo_only t r hr

/-- Witness for `dictionary_failure_nonfatal`: the finding the
dictionary-less engine produces on the text `"teh"` carries exactly the
typo-rule correction. -/
theorem dictionary_failure_nonfatal_witness :
    ∃ c, typoLookup (lowerStr "teh".toList) = some c ∧
      (⟨"teh".toList, ["the".toList], false, ⟨0, 3⟩⟩ : SpellCheckResult).suggestions = [c] ∧
      (⟨"teh".toList, ["the".toList], false, ⟨0, 3⟩⟩ : SpellCheckResult).isCorrect = false :=
  dictionary_failure_nonfatal.2.2.2 "teh".toList
    ⟨"teh".toList, ["the".toList], false, ⟨0, 3⟩⟩ (by decide)

theorem scanWords_mem_spec :
    ∀ (cs : Str) (pos : Nat) (prevW : Bool) (o : WordOcc),
      o ∈ scanWords cs pos prevW →
      pos ≤ o.start ∧ o.stop = o.start + o.word.length ∧ o.word ≠ [] ∧
        o.word.all isAlphaChar = true ∧ o.stop ≤ pos + cs.length ∧
        o.word = (cs.drop (o.start - pos)).take o.word.length := by
  intro cs
  induction cs with
  | nil => intro pos prevW o h; simp [scanWords] at h
  | cons c rest ih =>
    intro pos prevW o h
    simp only [scanWords] at h
    by_cases hc : (isAlphaChar c && !prevW) = true
    · rw [if_pos hc] at h
      have hsub : o ∈ (⟨c :: List.takeWhile isAlphaChar rest, pos,
            pos + (c :: List.takeWhile isAlphaChar rest).length⟩ : WordOcc) ::
            scanWords rest (pos + 1) true ∨ o ∈ scanWords rest (pos + 1) true := by
        revert h
        split
        · intro h; exact Or.inl h
        · intro h; exact Or.inr h
      have main : o = (⟨c :: List.takeWhile isAlphaChar rest, pos,
            pos + (c :: List.takeWhile isAlphaChar rest).length⟩ : WordOcc) ∨
            o ∈ scanWords rest (pos + 1) true := by
        rcases hsub with h | h
        · rcases List.mem_cons.mp h with h | h
          · exact Or.inl h
          · exact Or.inr h
        · exact Or.inr h
      rcases main with rfl | h
      · refine ⟨le_refl _, rfl, by simp, ?_, ?_, ?_⟩
        · simp only [List.all_cons, Bool.and_eq_true]
          refine ⟨by simpa using (Bool.and_eq_true _ _).mp hc |>.1, ?_⟩
          rw [List.all_eq_true]
          intro x hx
          exact List.mem_takeWhile_imp hx
        · simp only [List.length_cons]
          have := (List.takeWhile_prefix (l := rest) isAlphaChar).length_le
          omega
        · simp only [Nat.sub_self, List.drop_zero, List.length_cons,
            List.take_succ_cons, List.cons.injEq, true_and]
          exact List.prefix_iff_eq_take.mp (List.takeWhile_prefix _)
      · obtain ⟨h1, h2, h3, h4, h5, h6⟩ := ih (pos + 1) true o h
        refine ⟨by omega, h2, h3, h4,
          by simp only [List.length_cons]; omega, ?_⟩
        have hd : (c :: rest).drop (o.start - pos) = rest.drop (o.start - (pos + 1)) := by
          have : o.start - pos = (o.start - (pos + 1)) + 1 := by omega
          rw [this, List.drop_succ_cons]
        rw [hd]
        exact h6
    · rw [if_neg hc] at h
      obtain ⟨h1, h2, h3, h4, h5, h6⟩ := ih (pos + 1) (isWordChar c) o h
      refine ⟨by omega, h2, h3, h4,
        by simp only [List.length_cons]; omega, ?_⟩
      have hd : (c :: rest).drop (o.start - pos) = rest.drop (o.start - (pos + 1)) := by
        have : o.start - pos = (o.start - (pos + 1)) + 1 := by omega
        rw [this, List.drop_succ_cons]
      rw [hd]
      exact h6

theorem length_takeWhile_mono_pred (p q : Char → Bool)
    (hpq : ∀ a, p a = true → q a = true) :
    ∀ l : Str, (l.takeWhile p).length ≤ (l.takeWhile q).length := by
  intro l
  induction l with
  | nil => simp
  | cons a l ih =>
    cases hq : q a with
    | false =>
      have hp : p a = false := by
        cases hpa : p a
        · rfl
        · exact absurd (hpq a hpa) (by simp [hq])
      rw [List.takeWhile_cons_of_neg (by simp [hp]),
        List.takeWhile_cons_of_neg (by simp [hq])]
    | true =>
      rw [List.takeWhile_cons_of_pos hq]
      by_cases hp : p a = true
      · rw [List.takeWhile_cons_of_pos hp]
        simpa using ih
      · rw [List.takeWhile_cons_of_neg hp]
        simp

theorem scanWords_true_start_lb :
    ∀ (cs : Str) (pos : Nat) (o : WordOcc), o ∈ scanWords cs pos true →
      pos + (cs.takeWhile isWordChar).length + 1 ≤ o.start := by
  intro cs
  induction cs with
  | nil => intro pos o h; simp [scanWords] at h
  | cons c rest ih =>
    intro pos o h
    simp only [scanWords] at h
    rw [if_neg (by simp)] at h
    cases hw : isWordChar c with
    | true =>
      rw [hw] at h
      have := ih (pos + 1) o h
      rw [List.takeWhile_cons_of_pos hw]
      simp only [List.length_cons]
      omega
    | false =>
      rw [hw] at h
      have := (scanWords_mem_spec rest (pos + 1) false o h).1
      rw [List.takeWhile_cons_of_neg (by simp [hw])]
      simp only [List.length_nil]
      omega

theorem scanWords_pairwise :
    ∀ (cs : Str) (pos : Nat) (prevW : Bool),
      (scanWords cs pos prevW).Pairwise (fun a b => a.stop ≤ b.start) := by
  intro cs
  induction cs with
  | nil => intro pos prevW; simp [scanWords]
  | cons c rest ih =>
    intro pos prevW
    simp only [scanWords]
    by_cases hc : (isAlphaChar c && !prevW) = true
    · rw [if_pos hc]
      have htail := ih (pos + 1) true
      have hbound : ∀ o ∈ scanWords rest (pos + 1) true,
          pos + (c :: List.takeWhile isAlphaChar rest).length ≤ o.start := by
        intro o ho
        have h2 := scanWords_true_start_lb rest (pos + 1) o ho
        have h3 := length_takeWhile_mono_pred isAlphaChar isWordChar
          (fun a ha => by simp [isWordChar, ha]) rest
        simp only [List.length_cons]
        omega
      split
      · exact List.Pairwise.cons (fun o ho => hbound o ho) htail
      · exact htail
    · rw [if_neg hc]
      exact ih (pos + 1) (isWordChar c)

theorem checkWord_some_spec (dict : Option Dict) (o : WordOcc) (r : SpellCheckResult)
    (h : checkWord dict o = some r) :
    r.word = o.word ∧ r.position.start = o.start ∧ r.position.stop = o.stop ∧
      r.isCorrect = false := by
  simp only [checkWord] at h
  by_cases h1 : (decide (o.word.length ≤ 2) || isNumericWord o.word ||
      isSingleLetter o.word) = true
  · rw [if_pos h1] at h; cases h
  · rw [if_neg h1] at h
    by_cases h2 : TECHNICAL_WORDS.contains (lowerStr o.word) = true
    · rw [if_pos h2] at h; cases h
    · rw [if_neg h2] at h
      cases hc : typoLookup (lowerStr o.word) with
      | some corr =>
        simp only [hc, Option.some.injEq] at h
        rw [← h]
        exact ⟨rfl, rfl, rfl, rfl⟩
      | none =>
        simp only [hc] at h
        cases dict with
        | none => cases h
        | some d =>
          have h' : (if d.check o.word = true then none
              else some (⟨o.word, (d.suggest o.word).take 3, false,
                ⟨o.start, o.stop⟩⟩ : SpellCheckResult)) = some r := h
          by_cases hchk : d.check o.word = true
          · rw [if_pos hchk] at h'; cases h'
          · rw [if_neg hchk] at h'
            simp only [Option.some.injEq] at h'
            rw [← h']
            exact ⟨rfl, rfl, rfl, rfl⟩

/-- The findings of `checkSpelling` have non-overlapping, nonempty,
strictly ascending spans (helper shared by several results below). -/
theorem checkSpelling_spans_ordered (dict : Option Dict) (text : Str) :
    (checkSpelling dict text).Pairwise
      (fun a b => a.position.stop ≤ b.position.start) ∧
    (∀ r ∈ checkSpelling dict text, r.position.start < r.position.stop) ∧
    (checkSpelling dict text).Pairwise
      (fun a b => a.position.start < b.position.start) := by
  have hmem : ∀ r ∈ checkSpelling dict text, r.position.start < r.position.stop := by
    intro r hr
    rw [checkSpelling, List.mem_filterMap] at hr
    obtain ⟨o, ho, hro⟩ := hr
    obtain ⟨_, hs, hst, _⟩ := checkWord_some_spec dict o r hro
    obtain ⟨_, h2, h3, _, _, _⟩ := scanWords_mem_spec text 0 false o ho
    rw [hs, hst, h2]
    have : o.word.length ≠ 0 := by simpa using h3
    omega
  have hpw : (checkSpelling dict text).Pairwise
      (fun a b => a.position.stop ≤ b.position.start) := by
    rw [checkSpelling, List.pairwise_filterMap]
    refine (scanWords_pairwise text 0 false).imp ?_
    intro a b hab x hx y hy
    obtain ⟨_, _, hxs, _⟩ := checkWord_some_spec dict a x hx
    obtain ⟨_, hys, _, _⟩ := checkWord_some_spec dict b y hy
    rw [hxs, hys]
    exact hab
  refine ⟨hpw, hmem, ?_⟩
  have := List.Pairwise.and_mem.mp hpw
  refine (List.Pairwise.and_mem.mp hpw).imp ?_
  rintro a b ⟨ha, hb, hab⟩
  have := hmem a ha
  omega

/-- C2: for every input string (and any dictionary), the findings of
`checkSpelling` are in text order — strictly ascending by span start —
and their half-open spans never overlap (each span ends no later than
the next begins, and every span is nonempty). -/
theorem checkSpelling_sorted_nonoverlapping (dict : Option Dict) (text : Str) :
    (checkSpelling dict text).Pairwise
      (fun a b => a.position.stop ≤ b.position.start) ∧
    (∀ r ∈ checkSpelling dict text, r.position.start < r.position.stop) ∧
    (checkSpelling dict text).Pairwise
      (fun a b => a.position.start < b.position.start) :=
  checkSpelling_spans_ordered dict text

/-- A nonempty all-alphabetic word is not purely numeric. -/
theorem isNumericWord_eq_false_of_alpha (w : Str) (hne : w ≠ [])
    (ha : w.all isAlphaChar = true) : isNumericWord w = false := by
  cases w with
  | nil => exact absurd rfl hne
  | cons c cs =>
    have hc : isAlphaChar c = true := by
      simp only [List.all_cons, Bool.and_eq_true] at ha
      exact ha.1
    have hd : isDigitChar c = false := by
      simp only [isAlphaChar, Bool.or_eq_true, Bool.and_eq_true,
        decide_eq_true_eq] at hc
      simp only [isDigitChar, Bool.and_eq_true, decide_eq_true_eq,
        Bool.and_eq_false_iff, decide_eq_false_iff_not]
      omega
    simp [isNumericWord, hd]

theorem isSingleLetter_eq_false_of_length (w : Str) (h : 2 < w.length) :
    isSingleLetter w = false := by
  cases w with
  | nil => simp at h
  | cons a t =>
    cases t with
    | nil => simp at h
    | cons b t2 => simp [isSingleLetter]

/-- Distinct matches of `extractWords` have distinct start offsets. -/
theorem extractWords_start_ne (text : Str) :
    (extractWords text).Pairwise (fun a b => a.start ≠ b.start) := by
  have hp := scanWords_pairwise text 0 false
  refine (List.Pairwise.and_mem.mp hp).imp ?_
  rintro a b ⟨ha, hb, hab⟩
  obtain ⟨_, h2, h3, _, _, _⟩ := scanWords_mem_spec text 0 false a ha
  have : a.word.length ≠ 0 := by simpa using h3
  omega

/-- Among the findings produced from a list of word matches with
pairwise-distinct starts, exactly one finding carries the start of a
match that `checkWord` flags. -/
theorem filterMap_filter_unique (dict : Option Dict) :
    ∀ (l : List WordOcc) (o : WordOcc) (target : SpellCheckResult),
      l.Pairwise (fun a b => a.start ≠ b.start) → o ∈ l →
      checkWord dict o = some target →
      (l.filterMap (checkWord dict)).filter
        (fun r => r.position.start == o.start) = [target] := by
  intro l
  induction l with
  | nil => intro o target _ ho _; cases ho
  | cons x l ih =>
    intro o target hpw ho htgt
    rcases List.mem_cons.mp ho with rfl | ho'
    · rw [List.filterMap_cons, htgt, List.filter_cons]
      have hb : (target.position.start == o.start) = true := by
        rw [(checkWord_some_spec dict o target htgt).2.1]
        exact beq_self_eq_true _
      rw [if_pos hb]
      have hrest : (l.filterMap (checkWord dict)).filter
          (fun r => r.position.start == o.start) = [] := by
        rw [List.filter_eq_nil_iff]
        intro r hr
        rw [List.mem_filterMap] at hr
        obtain ⟨o2, ho2, hro2⟩ := hr
        have heq : r.position.start = o2.start :=
          (checkWord_some_spec dict o2 r hro2).2.1
        have hne : o.start ≠ o2.start := List.rel_of_pairwise_cons hpw ho2
        simp only [beq_iff_eq, heq]
        exact fun hcontra => hne hcontra.symm
      rw [hrest]
    · rw [List.filterMap_cons]
      cases hx : checkWord dict x with
      | none => exact ih o target hpw.of_cons ho' htgt
      | some rx =>
        rw [List.filter_cons]
        have hne : (rx.position.start == o.start) = false := by
          have heq : rx.position.start = x.start :=
            (checkWord_some_spec dict x rx hx).2.1
          have hxo : x.start ≠ o.start := List.rel_of_pairwise_cons hpw ho'
          simp only [beq_eq_false_iff_ne, ne_eq, heq]
          exact hxo
        rw [if_neg (by simp [hne])]
        exact ih o target hpw.of_cons ho' htgt

/-- C3: every surviving token occurrence (length > 2, not allowlisted)
whose lowercase form is a key of the typo mapping yields exactly one
finding at that occurrence, whose suggestions are exactly the single
mapped correction, marked misspelled, for any dictionary whatsoever. -/
theorem checkSpelling_typo_priority (dict : Option Dict) (text : Str)
    (o : WordOcc) (corr : Str) (ho : o ∈ extractWords text)
    (hlen : 2 < o.word.length)
    (hall : TECHNICAL_WORDS.contains (lowerStr o.word) = false)
    (htypo : typoLookup (lowerStr o.word) = some corr) :
    (checkSpelling dict text).filter (fun r => r.position.start == o.start) =
      [⟨o.word, [corr], false, ⟨o.start, o.stop⟩⟩] := by
  obtain ⟨_, _, hne, halpha, _, _⟩ := scanWords_mem_spec text 0 false o ho
  have hw : checkWord dict o = some ⟨o.word, [corr], false, ⟨o.start, o.stop⟩⟩ := by
    simp only [checkWord]
    have h1 : (decide (o.word.length ≤ 2) || isNumericWord o.word ||
        isSingleLetter o.word) = false := by
      rw [isNumericWord_eq_false_of_alpha o.word hne halpha,
        isSingleLetter_eq_false_of_length o.word hlen]
      simp only [Bool.or_false, decide_eq_false_iff_not]
      omega
    rw [if_neg (by simp [h1]),
      if_neg (by intro hcc; rw [hall] at hcc; cases hcc), htypo]
  exact filterMap_filter_unique dict (extractWords text) o _
    (extractWords_start_ne text) ho hw

/-- A token whose lowercase form is allowlisted is dropped by
`checkWord` before any typo-rule or dictionary lookup. -/
theorem checkWord_allowlisted (dict : Option Dict) (o : WordOcc)
    (hall : TECHNICAL_WORDS.contains (lowerStr o.word) = true) :
    checkWord dict o = none := by
  simp only [checkWord, hall]
  split_ifs <;> rfl

/-- C4: a token occurrence whose lowercase form is in the technical
allowlist never yields a finding, whatever the dictionary contains (the
allowlist test runs before the typo-rule and dictionary lookups). -/
theorem checkSpelling_allowlist_never_flagged (dict : Option Dict) (text : Str)
    (o : WordOcc) (ho : o ∈ extractWords text)
    (hall : TECHNICAL_WORDS.contains (lowerStr o.word) = true) :
    (checkSpelling dict text).filter (fun r => r.position.start == o.start) = [] := by
  rw [checkSpelling, List.filter_eq_nil_iff]
  intro r hr
  rw [List.mem_filterMap] at hr
  obtain ⟨o2, ho2, hro2⟩ := hr
  have heq : r.position.start = o2.start := (checkWord_some_spec dict o2 r hro2).2.1
  by_cases ho2o : o2 = o
  · subst ho2o
    rw [checkWord_allowlisted dict o2 hall] at hro2
    cases hro2
  · have hsym : Symmetric (fun a b : WordOcc => a.start ≠ b.start) :=
      fun a b h => h.symm
    have hpne : o2.start ≠ o.start :=
      (extractWords_start_ne text).forall hsym ho2 ho ho2o
    simp only [beq_iff_eq, heq]
    exact hpne

/-- Witness for `checkSpelling_typo_priority`: on `"teh"` with a
dictionary that claims every word is known, the single finding still
carries the typo-rule correction `"the"`. -/
theorem checkSpelling_typo_priority_witness :
    (checkSpelling (some ⟨fun _ => true, fun _ => []⟩) "teh".toList).filter
      (fun r => r.position.start == 0) =
    [⟨"teh".toList, ["the".toList], false, ⟨0, 3⟩⟩] :=
  checkSpelling_typo_priority (some ⟨fun _ => true, fun _ => []⟩) "teh".toList
    ⟨"teh".toList, 0, 3⟩ "the".toList (by decide) (by decide) (by decide) (by decide)

/-- Witness for `checkSpelling_allowlist_never_flagged`: `"kubernetes"`
is never flagged even by a dictionary that rejects every word. -/
theorem checkSpelling_allowlist_never_flagged_witness :
    (checkSpelling (some ⟨fun _ => false, fun w => [w]⟩) "kubernetes".toList).filter
      (fun r => r.position.start == 0) = [] :=
  checkSpelling_allowlist_never_flagged (some ⟨fun _ => false, fun w => [w]⟩)
    "kubernetes".toList ⟨"kubernetes".toList, 0, 10⟩ (by decide) (by decide)

theorem scanWords_shift :
    ∀ (cs : Str) (pos d : Nat) (prevW : Bool),
      scanWords cs (pos + d) prevW = (scanWords cs pos prevW).map (shiftOcc d) := by
  intro cs
  induction cs with
  | nil => intro pos d prevW; simp [scanWords]
  | cons c rest ih =>
    intro pos d prevW
    simp only [scanWords]
    by_cases hc : (isAlphaChar c && !prevW) = true
    · rw [if_pos hc, if_pos hc]
      have htail : scanWords rest (pos + d + 1) true =
          (scanWords rest (pos + 1) true).map (shiftOcc d) := by
        rw [show pos + d + 1 = (pos + 1) + d by omega]
        exact ih (pos + 1) d true
      split
      · rw [List.map_cons, htail]
        congr 1
        simp [shiftOcc, Nat.add_right_comm]
      · exact htail
    · rw [if_neg hc, if_neg hc]
      rw [show pos + d + 1 = (pos + 1) + d by omega]
      exact ih (pos + 1) d (isWordChar c)

/-- When the head of the input is not alphabetic (or the input is
empty) the previous-character flag is irrelevant. -/
theorem scanWords_prev_irrel :
    ∀ (cs : Str) (pos : Nat) (p1 p2 : Bool),
      (cs = [] ∨ isAlphaChar (cs.headI) = false) →
      scanWords cs pos p1 = scanWords cs pos p2 := by
  intro cs pos p1 p2 h
  cases cs with
  | nil => rfl
  | cons c rest =>
    rcases h with h | h
    · cases h
    · simp only [List.headI] at h
      simp only [scanWords, h, Bool.false_and, Bool.false_eq_true, if_false]

theorem isAlphaChar_eq_false_of_not_word (d : Char) (hd : isWordChar d = false) :
    isAlphaChar d = false := by
  simp only [isWordChar, Bool.or_eq_false_iff] at hd
  exact hd.1.1

theorem takeWhile_append_nonalpha (x y : Str) (d : Char) (hd : isAlphaChar d = false) :
    (x ++ d :: y).takeWhile isAlphaChar = x.takeWhile isAlphaChar := by
  rw [List.takeWhile_append]
  split
  · rename_i h
    have hx : x.takeWhile isAlphaChar = x :=
      (List.takeWhile_prefix (l := x) isAlphaChar).eq_of_length h
    rw [List.takeWhile_cons_of_neg (by simp [hd])]
    simp [hx]
  · rfl

theorem dropWhile_append_nonalpha (x y : Str) (d : Char) (hd : isAlphaChar d = false) :
    (x ++ d :: y).dropWhile isAlphaChar = x.dropWhile isAlphaChar ++ d :: y := by
  rw [List.dropWhile_append]
  split
  · rename_i h
    rw [List.isEmpty_iff] at h
    rw [h, List.nil_append, List.dropWhile_cons_of_neg (by simp [hd])]
  · rfl

/-- Splitting the scan at a non-word character: matches on the two
sides are independent (no run can cross, and the run just before the
separator keeps its trailing boundary). -/
theorem scanWords_split_nonword (d : Char) (hd : isWordChar d = false) (y : Str) :
    ∀ (x : Str) (pos : Nat) (prevW : Bool),
      scanWords (x ++ d :: y) pos prevW =
        scanWords x pos prevW ++ scanWords y (pos + x.length + 1) false := by
  have hda : isAlphaChar d = false := isAlphaChar_eq_false_of_not_word d hd
  intro x
  induction x with
  | nil =>
    intro pos prevW
    simp only [List.nil_append, scanWords, List.length_nil]
    rw [if_neg (by simp [hda]), hd]
  | cons a x' ih =>
    intro pos prevW
    simp only [List.cons_append, scanWords, List.append_eq]
    by_cases hc : (isAlphaChar a && !prevW) = true
    · rw [if_pos hc, if_pos hc]
      rw [takeWhile_append_nonalpha x' y d hda]
      rw [dropWhile_append_nonalpha x' y d hda]
      rw [ih (pos + 1) true]
      have harith : pos + 1 + x'.length + 1 = pos + (a :: x').length + 1 := by
        simp only [List.length_cons]; omega
      rw [harith]
      cases hdx : x'.dropWhile isAlphaChar with
      | nil =>
        simp only [List.nil_append, hd, Bool.not_false]
        split <;> rfl
      | cons e es =>
        simp only [List.cons_append]
        split <;> rfl
    · rw [if_neg hc, if_neg hc]
      rw [ih (pos + 1) (isWordChar a)]
      have harith : pos + 1 + x'.length + 1 = pos + (a :: x').length + 1 := by
        simp only [List.length_cons]; omega
      rw [harith]

/-- Scanning a word-character prefix with the previous-character flag
set emits nothing: the flag stays set across the whole prefix. -/
theorem scanWords_wordchar_prefix :
    ∀ (u v : Str) (pos : Nat), u.all isWordChar = true →
      scanWords (u ++ v) pos true = scanWords v (pos + u.length) true := by
  intro u
  induction u with
  | nil => intro v pos _; simp
  | cons a u' ih =>
    intro v pos hall
    simp only [List.all_cons, Bool.and_eq_true] at hall
    simp only [List.cons_append, scanWords, List.append_eq]
    rw [if_neg (by simp), hall.1, ih v (pos + 1) hall.2]
    congr 1
    simp only [List.length_cons]
    omega

/-- Scanning an alphabetic run with a clear previous-character flag,
followed by a non-word character (or nothing), emits exactly that run
and then continues behind it. -/
theorem scanWords_run (c : Char) (w' B : Str) (pos : Nat)
    (hc : isAlphaChar c = true) (hw : w'.all isAlphaChar = true)
    (hB : B = [] ∨ isWordChar B.headI = false) :
    scanWords ((c :: w') ++ B) pos false =
      ⟨c :: w', pos, pos + (c :: w').length⟩ ::
        scanWords B (pos + (c :: w').length) true := by
  have hwmem : ∀ a ∈ w', isAlphaChar a = true := List.all_eq_true.mp hw
  have hww : w'.all isWordChar = true := by
    rw [List.all_eq_true]
    intro a ha
    simp [isWordChar, hwmem a ha]
  have htw : List.takeWhile isAlphaChar (w' ++ B) = w' := by
    rw [List.takeWhile_append_of_pos hwmem]
    rcases hB with rfl | hB2
    · simp
    · cases B with
      | nil => simp
      | cons d B' =>
        simp only [List.headI] at hB2
        rw [List.takeWhile_cons_of_neg
          (by simp [isAlphaChar_eq_false_of_not_word d hB2])]
        simp
  have hdw : List.dropWhile isAlphaChar (w' ++ B) = B := by
    rw [List.dropWhile_append_of_pos hwmem]
    rcases hB with rfl | hB2
    · simp
    · cases B with
      | nil => simp
      | cons d B' =>
        simp only [List.headI] at hB2
        rw [List.dropWhile_cons_of_neg
          (by simp [isAlphaChar_eq_false_of_not_word d hB2])]
  cases B with
  | nil =>
    simp only [List.cons_append, scanWords, List.append_eq]
    rw [if_pos (by simp [hc]), htw, hdw, if_pos rfl,
      scanWords_wordchar_prefix w' [] (pos + 1) hww]
    simp [scanWords]
  | cons d B' =>
    have hd : isWordChar d = false := by
      rcases hB with hB2 | hB2
      · cases hB2
      · simpa [List.headI] using hB2
    simp only [List.cons_append, scanWords, List.append_eq]
    rw [if_pos (by simp [hc]), htw, hdw, if_pos (by simp [hd]),
      scanWords_wordchar_prefix w' (d :: B') (pos + 1) hww,
      show pos + 1 + w'.length = pos + (c :: w').length from by
        simp only [List.length_cons]; omega]
    congr 1

/-- Every emitted match starts either at the scan origin with a clear
previous-character flag, or right after a non-word character. -/
theorem scanWords_mem_left_boundary :
    ∀ (cs : Str) (pos : Nat) (prevW : Bool) (o : WordOcc),
      o ∈ scanWords cs pos prevW →
      (o.start = pos ∧ prevW = false) ∨
      (pos < o.start ∧ isWordChar (cs.getD (o.start - pos - 1) ' ') = false) := by
  intro cs
  induction cs with
  | nil => intro pos prevW o h; simp [scanWords] at h
  | cons c rest ih =>
    intro pos prevW o h
    simp only [scanWords] at h
    by_cases hc : (isAlphaChar c && !prevW) = true
    · rw [if_pos hc] at h
      have hsplit : o = (⟨c :: List.takeWhile isAlphaChar rest, pos,
            pos + (c :: List.takeWhile isAlphaChar rest).length⟩ : WordOcc) ∨
          o ∈ scanWords rest (pos + 1) true := by
        revert h
        split
        · intro h
          rcases List.mem_cons.mp h with h | h
          · exact Or.inl h
          · exact Or.inr h
        · intro h; exact Or.inr h
      rcases hsplit with rfl | h2
      · left
        refine ⟨rfl, ?_⟩
        have := (Bool.and_eq_true _ _).mp hc
        simpa using this.2
      · rcases ih (pos + 1) true o h2 with ⟨_, hcontra⟩ | ⟨hlt, hw⟩
        · cases hcontra
        · right
          refine ⟨by omega, ?_⟩
          have hidx : o.start - pos - 1 = (o.start - (pos + 1) - 1) + 1 := by omega
          rw [hidx, List.getD_cons_succ]
          exact hw
    · rw [if_neg hc] at h
      rcases ih (pos + 1) (isWordChar c) o h with ⟨heq, hwc⟩ | ⟨hlt, hw⟩
      · right
        refine ⟨by omega, ?_⟩
        have hidx : o.start - pos - 1 = 0 := by omega
        rw [hidx, List.getD_cons_zero]
        exact hwc
      · right
        refine ⟨by omega, ?_⟩
        have hidx : o.start - pos - 1 = (o.start - (pos + 1) - 1) + 1 := by omega
        rw [hidx, List.getD_cons_succ]
        exact hw

/-- Every emitted match ends at the end of the input or right before a
non-word character. -/
theorem scanWords_mem_right_boundary :
    ∀ (cs : Str) (pos : Nat) (prevW : Bool) (o : WordOcc),
      o ∈ scanWords cs pos prevW →
      o.stop - pos = cs.length ∨ isWordChar (cs.getD (o.stop - pos) ' ') = false := by
  intro cs
  induction cs with
  | nil => intro pos prevW o h; simp [scanWords] at h
  | cons c rest ih =>
    intro pos prevW o h
    have hconv : ∀ p : Bool, o ∈ scanWords rest (pos + 1) p →
        (o.stop - pos = (c :: rest).length ∨
          isWordChar ((c :: rest).getD (o.stop - pos) ' ') = false) := by
      intro p hmem
      obtain ⟨hge, hst, hne, _, _, _⟩ := scanWords_mem_spec rest (pos + 1) p o hmem
      have hlen : o.word.length ≠ 0 := by simpa using hne
      rcases ih (pos + 1) p o hmem with heq | hw
      · left
        simp only [List.length_cons]
        omega
      · right
        have hidx : o.stop - pos = (o.stop - (pos + 1)) + 1 := by omega
        rw [hidx, List.getD_cons_succ]
        exact hw
    simp only [scanWords] at h
    by_cases hc : (isAlphaChar c && !prevW) = true
    · rw [if_pos hc] at h
      cases hdr : List.dropWhile isAlphaChar rest with
      | nil =>
        rw [hdr] at h
        rcases List.mem_cons.mp h with rfl | h2
        · left
          have htk : List.takeWhile isAlphaChar rest = rest := by
            have hh := List.takeWhile_append_dropWhile isAlphaChar rest
            rw [hdr, List.append_nil] at hh
            exact hh
          simp [htk]
        · exact hconv true h2
      | cons d ds =>
        rw [hdr] at h
        have h3 : o ∈ (if (!isWordChar d) = true
            then (⟨c :: List.takeWhile isAlphaChar rest, pos,
              pos + (c :: List.takeWhile isAlphaChar rest).length⟩ : WordOcc) ::
              scanWords rest (pos + 1) true
            else scanWords rest (pos + 1) true) := h
        clear h
        cases hwd : isWordChar d with
        | false =>
          rw [hwd, Bool.not_false, if_pos rfl] at h3
          rcases List.mem_cons.mp h3 with rfl | h2
          · right
            have hrest : rest = List.takeWhile isAlphaChar rest ++ d :: ds := by
              conv_lhs => rw [← List.takeWhile_append_dropWhile isAlphaChar rest, hdr]
            have hidx : (⟨c :: List.takeWhile isAlphaChar rest, pos,
                pos + (c :: List.takeWhile isAlphaChar rest).length⟩ : WordOcc).stop - pos =
                (List.takeWhile isAlphaChar rest).length + 1 := by
              simp only [List.length_cons]
              omega
            rw [hidx, List.getD_cons_succ]
            have hget := congrArg
              (fun l => l.getD (List.takeWhile isAlphaChar rest).length ' ') hrest
            simp only at hget
            rw [hget, List.getD_append_right _ _ _ _ (le_refl _), Nat.sub_self,
              List.getD_cons_zero]
            exact hwd
          · exact hconv true h2
        | true =>
          rw [hwd, Bool.not_true, if_neg (by simp)] at h3
          exact hconv true h3
    · rw [if_neg hc] at h
      exact hconv (isWordChar c) h

/-- C1 (amended): `extractWords` returns exactly the maximal alphabetic
runs delimited by word boundaries: each reported span carries the
substring of the text at that span, and a span is reported iff it is an
alphabetic run whose neighbours are absent or non-word characters. -/
theorem extractWords_characterization (t : Str) (o : WordOcc) :
    o ∈ extractWords t ↔
      o.word = (t.drop o.start).take (o.stop - o.start) ∧
      isBoundedAlphaRun t o.start o.stop = true := by
  constructor
  · intro h
    obtain ⟨h0, hstop, hne, halpha, hstople, hslice⟩ :=
      scanWords_mem_spec t 0 false o h
    rw [Nat.sub_zero] at hslice
    rw [Nat.zero_add] at hstople
    have hlen : o.word.length ≠ 0 := by simpa using hne
    have hlen2 : o.stop - o.start = o.word.length := by omega
    constructor
    · rw [hlen2]; exact hslice
    · simp only [isBoundedAlphaRun, Bool.and_eq_true, Bool.or_eq_true,
        decide_eq_true_eq, Bool.not_eq_true']
      refine ⟨⟨⟨⟨by omega, hstople⟩, ?_⟩, ?_⟩, ?_⟩
      · rw [hlen2, ← hslice]; exact halpha
      · rcases scanWords_mem_left_boundary t 0 false o h with ⟨hs0, _⟩ | ⟨hpos, hw⟩
        · exact Or.inl hs0
        · right
          simpa using hw
      · rcases scanWords_mem_right_boundary t 0 false o h with hs | hw
        · left; simpa using hs
        · right; simpa using hw
  · rintro ⟨hword, hrun⟩
    simp only [isBoundedAlphaRun, Bool.and_eq_true, Bool.or_eq_true,
      decide_eq_true_eq, Bool.not_eq_true'] at hrun
    obtain ⟨⟨⟨⟨hlt, hle⟩, hall⟩, hleft⟩, hright⟩ := hrun
    have hwlen : o.word.length = o.stop - o.start := by
      rw [hword, List.length_take, List.length_drop]
      omega
    have hallw : o.word.all isAlphaChar = true := by
      rw [hword]; exact hall
    have hwne : o.word ≠ [] := by
      intro hcon
      rw [hcon] at hwlen
      simp only [List.length_nil] at hwlen
      omega
    have hsplitT : t = t.take o.start ++ (o.word ++ t.drop o.stop) := by
      have h2 : (t.drop o.start).drop (o.stop - o.start) = t.drop o.stop := by
        rw [List.drop_drop]
        congr 1
        omega
      conv_lhs => rw [← List.take_append_drop o.start t]
      congr 1
      rw [hword, ← h2]
      exact (List.take_append_drop _ _).symm
    have hB : t.drop o.stop = [] ∨ isWordChar ((t.drop o.stop).headI) = false := by
      rcases Nat.eq_or_lt_of_le hle with he | hlt2
      · left
        rw [he, List.drop_length]
      · right
        rcases hright with he | hw
        · omega
        · rw [List.drop_eq_getElem_cons hlt2]
          simp only [List.headI]
          rw [List.getD_eq_getElem t ' ' hlt2] at hw
          exact hw
    cases hwd : o.word with
    | nil => exact absurd hwd hwne
    | cons c w' =>
      have hc : isAlphaChar c = true := by
        rw [hwd] at hallw
        simp only [List.all_cons, Bool.and_eq_true] at hallw
        exact hallw.1
      have hw' : w'.all isAlphaChar = true := by
        rw [hwd] at hallw
        simp only [List.all_cons, Bool.and_eq_true] at hallw
        exact hallw.2
      have hstoplen : o.stop = o.start + (c :: w').length := by
        rw [← hwd, hwlen]
        omega
      by_cases hs0 : o.start = 0
      · have htk : t.take o.start = [] := by rw [hs0]; rfl
        rw [extractWords]
        conv_lhs =>
          rw [hsplitT, htk, List.nil_append, hwd,
            scanWords_run c w' (t.drop o.stop) 0 hc hw' hB]
        have ho : o = ⟨c :: w', 0, 0 + (c :: w').length⟩ := by
          cases o with
          | mk ww ss ee =>
            simp only [WordOcc.mk.injEq]
            simp only at hwd hstoplen hs0
            refine ⟨hwd, hs0, ?_⟩
            rw [hs0] at hstoplen
            simpa using hstoplen
        exact List.mem_cons.mpr (Or.inl ho)
      · have hcb : isWordChar (t.getD (o.start - 1) ' ') = false := by
          rcases hleft with h | h
          · exact absurd h hs0
          · exact h
        have hs1lt : o.start - 1 < t.length := by omega
        have htake : t.take o.start = t.take (o.start - 1) ++ [t.getD (o.start - 1) ' '] := by
          have h1 : t.take ((o.start - 1) + 1) =
              t.take (o.start - 1) ++ (t[o.start - 1]?).toList := List.take_succ
          rw [show (o.start - 1) + 1 = o.start from by omega] at h1
          rw [h1, List.getElem?_eq_getElem hs1lt, List.getD_eq_getElem t ' ' hs1lt]
          rfl
        have htklen : (t.take (o.start - 1)).length = o.start - 1 := by
          rw [List.length_take]
          omega
        rw [extractWords]
        conv_lhs =>
          rw [hsplitT, htake, List.append_assoc, List.singleton_append, hwd]
        rw [scanWords_split_nonword (t.getD (o.start - 1) ' ') hcb
          ((c :: w') ++ t.drop o.stop) (t.take (o.start - 1)) 0 false]
        rw [scanWords_run c w' (t.drop o.stop) _ hc hw' hB]
        have harith : 0 + (t.take (o.start - 1)).length + 1 = o.start := by
          rw [htklen]
          omega
        rw [harith]
        have ho : o = ⟨c :: w', o.start, o.start + (c :: w').length⟩ := by
          cases o with
          | mk ww ss ee =>
            simp only [WordOcc.mk.injEq]
            simp only at hwd hstoplen
            exact ⟨hwd, trivial, hstoplen⟩
        refine List.mem_append_right _ ?_
        exact List.mem_cons.mpr (Or.inl ho)

/-- C1 counterexample: `"lenght123"` contains the maximal alphabetic
run `lenght` at span `[0, 6)`, yet `extractWords` reports no candidate
word at all — a run bordered by digits fails the regex's `\b`
assertion and is never checked. -/
theorem extractWords_misses_run_next_to_digits :
    extractWords "lenght123".toList = [] ∧
    isMaximalAlphaRun "lenght123".toList 0 6 = true := by
  exact ⟨by rfl, by rfl⟩

/-- Characters that are not ESC pass through `stripAnsi` unchanged. -/
theorem stripAnsi_escfree_append (l z : Str) (h : ∀ c ∈ l, c ≠ '\x1b') :
    stripAnsi (l ++ z) = l ++ stripAnsi z := by
  induction l with
  | nil => simp
  | cons c l ih =>
    have hc : c ≠ '\x1b' := h c (List.mem_cons_self c l)
    simp only [List.cons_append, stripAnsi, stripRun]
    rw [if_neg hc]
    exact congrArg (c :: ·) (ih (fun d hd => h d (List.mem_cons_of_mem c hd)))

/-- Reading buffered parameters up to the closing `m` deletes the whole
sequence. -/
theorem stripRun_params (ps : Str) (hps : ps.all isParamChar = true) :
    ∀ (acc : Str) (z : Str),
      stripRun (ps ++ 'm' :: z) (.params acc) = stripRun z .normal := by
  induction ps with
  | nil =>
    intro acc z
    simp only [List.nil_append, stripRun]
    rw [if_neg (by simp [isParamChar, isDigitChar])]
    simp
  | cons p ps ih =>
    intro acc z
    simp only [List.all_cons, Bool.and_eq_true] at hps
    simp only [List.cons_append, stripRun]
    rw [if_pos hps.1]
    exact ih hps.2 (acc ++ [p]) z

/-- A full style-control sequence `ESC [ params m` is deleted. -/
theorem stripAnsi_match (ps : Str) (hps : ps.all isParamChar = true) (z : Str) :
    stripAnsi ('\x1b' :: '[' :: (ps ++ 'm' :: z)) = stripAnsi z := by
  simp only [stripAnsi, stripRun, if_true]
  exact stripRun_params ps hps [] z

/-- Splitting a text at a span: prefix, the span's substring, suffix. -/
theorem take_slice_drop (t : Str) (s e : Nat) (hse : s ≤ e) (he : e ≤ t.length) :
    t.take s ++ ((t.drop s).take (e - s) ++ t.drop e) = t := by
  have h2 : (t.drop s).drop (e - s) = t.drop e := by
    rw [List.drop_drop]
    congr 1
    omega
  conv_rhs => rw [← List.take_append_drop s t]
  congr 1
  rw [← h2]
  exact List.take_append_drop _ _

/-- While the remaining findings live strictly inside the prefix, the
highlight fold never touches an appended suffix. -/
theorem foldl_highlight_append :
    ∀ (fs : List SpellCheckResult) (A z : Str),
      fs.Pairwise (fun a b => b.position.stop ≤ a.position.start) →
      (∀ f ∈ fs, f.position.start ≤ f.position.stop ∧ f.position.stop ≤ A.length) →
      fs.foldl applyHighlight (A ++ z) = fs.foldl applyHighlight A ++ z := by
  intro fs
  induction fs with
  | nil => intro A z _ _; rfl
  | cons f fs ih =>
    intro A z hpw hin
    obtain ⟨hse, hstop⟩ := hin f (List.mem_cons_self f fs)
    have hstep : applyHighlight (A ++ z) f = applyHighlight A f ++ z := by
      unfold applyHighlight
      rw [List.take_append_of_le_length (by omega),
        List.drop_append_of_le_length hstop]
      simp [List.append_assoc]
    rw [List.foldl_cons, List.foldl_cons, hstep]
    apply ih
    · exact hpw.of_cons
    · intro g hg
      obtain ⟨h1, h2⟩ := hin g (List.mem_cons_of_mem f hg)
      refine ⟨h1, ?_⟩
      have hgf : g.position.stop ≤ f.position.start :=
        List.rel_of_pairwise_cons hpw hg
      unfold applyHighlight
      simp only [List.length_append, List.length_take]
      omega

/-- Stripping the style sequences from the highlight fold recovers the
text, with any suffix stripped independently. -/
theorem strip_foldl_highlight :
    ∀ (fs : List SpellCheckResult) (t rest : Str),
      (∀ c ∈ t, c ≠ '\x1b') →
      fs.Pairwise (fun a b => b.position.stop ≤ a.position.start) →
      (∀ f ∈ fs, f.position.start < f.position.stop ∧
        f.position.stop ≤ t.length ∧
        f.word = (t.drop f.position.start).take
          (f.position.stop - f.position.start)) →
      stripAnsi (fs.foldl applyHighlight t ++ rest) = t ++ stripAnsi rest := by
  intro fs
  induction fs with
  | nil =>
    intro t rest hesc _ _
    exact stripAnsi_escfree_append t rest hesc
  | cons f fs ih =>
    intro t rest hesc hpw hin
    obtain ⟨hlt, hstop, hword⟩ := hin f (List.mem_cons_self f fs)
    rw [List.foldl_cons]
    have hA : applyHighlight t f =
        t.take f.position.start ++ (styleWord f.word ++ t.drop f.position.stop) := by
      unfold applyHighlight
      rw [List.append_assoc]
    rw [hA]
    have hbounds : ∀ g ∈ fs, g.position.start ≤ g.position.stop ∧
        g.position.stop ≤ (t.take f.position.start).length := by
      intro g hg
      obtain ⟨h1, h2, _⟩ := hin g (List.mem_cons_of_mem f hg)
      have hgf : g.position.stop ≤ f.position.start :=
        List.rel_of_pairwise_cons hpw hg
      rw [List.length_take]
      constructor
      · omega
      · omega
    rw [foldl_highlight_append fs _ _ hpw.of_cons hbounds]
    rw [List.append_assoc]
    rw [ih (t.take f.position.start) (styleWord f.word ++ t.drop f.position.stop ++ rest)
      (fun c hc => hesc c (List.mem_of_mem_take hc)) hpw.of_cons ?props]
    case props =>
      intro g hg
      obtain ⟨h1, h2, h3⟩ := hin g (List.mem_cons_of_mem f hg)
      have hgf : g.position.stop ≤ f.position.start :=
        List.rel_of_pairwise_cons hpw hg
      refine ⟨h1, by rw [List.length_take]; omega, ?_⟩
      rw [h3]
      rw [List.drop_take]
      rw [List.take_take]
      congr 1
      omega
    -- now strip the style word and the suffix
    have hwesc : ∀ c ∈ f.word, c ≠ '\x1b' := by
      intro c hc
      rw [hword] at hc
      exact hesc c (List.mem_of_mem_drop (List.mem_of_mem_take hc))
    have hstyle : stripAnsi (styleWord f.word ++ t.drop f.position.stop ++ rest) =
        f.word ++ (t.drop f.position.stop ++ stripAnsi rest) := by
      unfold styleWord
      have e1 : "\x1b[31m\x1b[4m".toList ++ f.word ++ "\x1b[0m".toList ++
          (t.drop f.position.stop ++ rest) =
          '\x1b' :: '[' :: (['3', '1'] ++ 'm' ::
            ('\x1b' :: '[' :: (['4'] ++ 'm' ::
              (f.word ++ ('\x1b' :: '[' :: (['0'] ++ 'm' ::
                (t.drop f.position.stop ++ rest))))))) := by
        simp
      rw [List.append_assoc, e1, stripAnsi_match _ (by decide) _,
        stripAnsi_match _ (by decide) _,
        stripAnsi_escfree_append _ _ hwesc,
        stripAnsi_match _ (by decide) _,
        stripAnsi_escfree_append _ _
          (fun c hc => hesc c (List.mem_of_mem_drop hc))]
    have hfinal : t.take f.position.start ++ f.word ++ t.drop f.position.stop = t := by
      rw [hword, List.append_assoc]
      exact take_slice_drop t f.position.start f.position.stop (by omega) hstop
    rw [hstyle]
    simp only [← List.append_assoc]
    rw [hfinal]

/-- C6 (amended): for every ESC-free text and every findings set with
in-bounds, nonempty, pairwise-disjoint spans whose `word` fields match
the text at their spans (the invariant the engine guarantees), applying
`createSquigglyUnderline` and then stripping all ANSI style-control
sequences yields exactly the original text. -/
theorem highlight_strip_roundtrip (text : Str) (errors : List SpellCheckResult)
    (hesc : ∀ c ∈ text, c ≠ '\x1b')
    (hdisj : errors.Pairwise (fun a b => a.position.stop ≤ b.position.start ∨
      b.position.stop ≤ a.position.start))
    (hok : ∀ f ∈ errors, f.position.start < f.position.stop ∧
      f.position.stop ≤ text.length ∧
      f.word = (text.drop f.position.start).take
        (f.position.stop - f.position.start)) :
    stripAnsi (createSquigglyUnderline text errors) = text := by
  haveI hTot : IsTotal SpellCheckResult
      (fun a b => b.position.start ≤ a.position.start) :=
    ⟨fun a b => (Nat.le_total b.position.start a.position.start)⟩
  haveI hTrans : IsTrans SpellCheckResult
      (fun a b => b.position.start ≤ a.position.start) :=
    ⟨fun a b c hab hbc => Nat.le_trans hbc hab⟩
  unfold createSquigglyUnderline
  split_ifs with hlen
  · have h := stripAnsi_escfree_append text [] hesc
    simpa [stripAnsi, stripRun] using h
  · have hperm : List.Perm (sortErrorsDesc errors) errors :=
      List.perm_insertionSort _ _
    have hmemL : ∀ f ∈ sortErrorsDesc errors,
        f.position.start < f.position.stop ∧
        f.position.stop ≤ text.length ∧
        f.word = (text.drop f.position.start).take
          (f.position.stop - f.position.start) :=
      fun f hf => hok f (hperm.mem_iff.mp hf)
    have hsorted : (sortErrorsDesc errors).Pairwise
        (fun a b => b.position.start ≤ a.position.start) :=
      List.sorted_insertionSort _ errors
    have hdisjL : (sortErrorsDesc errors).Pairwise
        (fun a b => a.position.stop ≤ b.position.start ∨
          b.position.stop ≤ a.position.start) :=
      ((hperm.pairwise_iff fun h => Or.symm h).mpr hdisj)
    have hchain : (sortErrorsDesc errors).Pairwise
        (fun a b => b.position.stop ≤ a.position.start) := by
      refine (List.Pairwise.and_mem.mp (hsorted.and hdisjL)).imp ?_
      rintro a b ⟨ha, hb, hle, hd⟩
      obtain ⟨halt, _, _⟩ := hmemL a ha
      rcases hd with h | h
      · omega
      · exact h
    have h := strip_foldl_highlight (sortErrorsDesc errors) text [] hesc hchain hmemL
    simpa [stripAnsi, stripRun] using h

/-- C6 counterexample: with an empty findings set — any findings set —
`highlight` leaves a text that itself contains a style-control sequence
unchanged, and stripping then erases that sequence: the round trip is
not the identity on arbitrary texts. -/
theorem highlight_strip_not_identity :
    stripAnsi (createSquigglyUnderline "\x1b[m".toList []) = [] ∧
    "\x1b[m".toList ≠ ([] : Str) := by
  decide

/-- Witness for `highlight_strip_roundtrip`: the engine's finding on
`"teh"` highlights and strips back to `"teh"`. -/
theorem highlight_strip_roundtrip_witness :
    stripAnsi (createSquigglyUnderline "teh".toList
      [⟨"teh".toList, ["the".toList], false, ⟨0, 3⟩⟩]) = "teh".toList :=
  highlight_strip_roundtrip "teh".toList
    [⟨"teh".toList, ["the".toList], false, ⟨0, 3⟩⟩]
    (by decide) (by decide) (by decide)

/-- Inserting an element whose start is strictly below every start in
the list sinks it to the end under the descending comparator. -/
theorem orderedInsert_sink (x : SpellCheckResult) :
    ∀ l : List SpellCheckResult,
      (∀ b ∈ l, x.position.start < b.position.start) →
      List.orderedInsert (fun a b => b.position.start ≤ a.position.start) x l =
        l ++ [x] := by
  intro l
  induction l with
  | nil => intro _; rfl
  | cons b l ih =>
    intro h
    have hb := h b (List.mem_cons_self b l)
    rw [List.orderedInsert, if_neg (by omega),
      ih (fun c hc => h c (List.mem_cons_of_mem b hc))]
    rfl

/-- Sorting a strictly-ascending findings list with the descending
comparator reverses it. -/
theorem sortErrorsDesc_of_ascending :
    ∀ fs : List SpellCheckResult,
      fs.Pairwise (fun a b => a.position.start < b.position.start) →
      sortErrorsDesc fs = fs.reverse := by
  intro fs
  induction fs with
  | nil => intro _; rfl
  | cons f fs ih =>
    intro hpw
    rw [sortErrorsDesc, List.insertionSort]
    rw [show List.insertionSort
        (fun a b => b.position.start ≤ a.position.start) fs = sortErrorsDesc fs
      from rfl]
    rw [ih hpw.of_cons]
    rw [orderedInsert_sink f fs.reverse
      (fun b hb => List.rel_of_pairwise_cons hpw (List.mem_reverse.mp hb))]
    rw [List.reverse_cons]

/-- C10 (amended): both highlight helpers sort the caller's findings
array in place (JS `Array.prototype.sort`), so after a render the
stored sequence equals the reverse of the ascending sequence `check`
returned; whenever at least two findings were present, it is therefore
no longer ascending by start. -/
theorem render_post_findings_descending (dict : Option Dict) (text : Str) :
    createSquigglyUnderlinePost (checkSpelling dict text) =
      (checkSpelling dict text).reverse ∧
    createDisplayTextPost (checkSpelling dict text) =
      (checkSpelling dict text).reverse ∧
    (2 ≤ (checkSpelling dict text).length →
      ¬ (createSquigglyUnderlinePost (checkSpelling dict text)).Pairwise
        (fun a b => a.position.start ≤ b.position.start)) := by
  have hasc := (checkSpelling_spans_ordered dict text).2.2
  have hrev : sortErrorsDesc (checkSpelling dict text) =
      (checkSpelling dict text).reverse :=
    sortErrorsDesc_of_ascending _ hasc
  have hpost : createSquigglyUnderlinePost (checkSpelling dict text) =
      (checkSpelling dict text).reverse := by
    unfold createSquigglyUnderlinePost
    split_ifs with h
    · rw [List.length_eq_zero] at h
      rw [h]
      rfl
    · exact hrev
  have hpost2 : createDisplayTextPost (checkSpelling dict text) =
      (checkSpelling dict text).reverse := by
    unfold createDisplayTextPost
    split_ifs with h
    · rw [List.length_eq_zero] at h
      rw [h]
      rfl
    · exact hrev
  refine ⟨hpost, hpost2, ?_⟩
  intro hlen hP
  rw [hpost, List.pairwise_reverse] at hP
  cases hfs : checkSpelling dict text with
  | nil => rw [hfs] at hlen; simp at hlen
  | cons f1 rest =>
    cases rest with
    | nil => rw [hfs] at hlen; simp at hlen
    | cons f2 rest2 =>
      rw [hfs] at hP hasc
      have h1 : f1.position.start < f2.position.start :=
        List.rel_of_pairwise_cons hasc (List.mem_cons_self f2 rest2)
      have h2 : f2.position.start ≤ f1.position.start :=
        List.rel_of_pairwise_cons hP (List.mem_cons_self f2 rest2)
      omega

/-- C10 counterexample: a render with a single finding leaves the
stored findings sequence unchanged and still ascending, so the caller's
sequence is not "no longer ascending" after *every* render. -/
theorem render_post_single_still_ascending :
    createSquigglyUnderlinePost (checkSpelling none "teh".toList) =
      checkSpelling none "teh".toList ∧
    (createSquigglyUnderlinePost (checkSpelling none "teh".toList)).Pairwise
      (fun a b => a.position.start ≤ b.position.start) := by
  decide

/-- Witness for `render_post_findings_descending`: two findings come
back descending, no longer ascending. -/
theorem render_post_findings_descending_witness :
    createSquigglyUnderlinePost (checkSpelling none "teh adn".toList) =
      (checkSpelling none "teh adn".toList).reverse ∧
    ¬ (createSquigglyUnderlinePost (checkSpelling none "teh adn".toList)).Pairwise
      (fun a b => a.position.start ≤ b.position.start) := by
  have h := render_post_findings_descending none "teh adn".toList
  exact ⟨h.1, h.2.2 (by decide)⟩

theorem checkWord_none_typoFlag (o : WordOcc) :
    checkWord none o = (typoFlag o.word).map
      (fun corr => ⟨o.word, [corr], false, ⟨o.start, o.stop⟩⟩) := by
  simp only [checkWord, typoFlag]
  split_ifs <;> (try rfl) <;> (cases typoLookup (lowerStr o.word) <;> rfl)

/-- No typo correction contains a word that the typo-rule-only engine
would flag again (checked by evaluation over the whole table). -/
theorem corrections_clean : COMMON_TYPOS.all
    (fun kv => (extractWords kv.2).all (fun o => (typoFlag o.word).isNone)) = true := by
  set_option maxRecDepth 10000 in decide

theorem filterMap_checkWord_none_eq_nil (l : List WordOcc) :
    l.filterMap (checkWord none) = [] ↔ ∀ o ∈ l, typoFlag o.word = none := by
  rw [List.filterMap_eq_nil_iff]
  constructor
  · intro h o ho
    have := h o ho
    rw [checkWord_none_typoFlag] at this
    exact Option.map_eq_none'.mp this
  · intro h o ho
    rw [checkWord_none_typoFlag]
    exact Option.map_eq_none'.mpr (h o ho)

theorem scanWords_flag_none_shift (cs : Str) (prev : Bool) (p q : Nat)
    (h : ∀ o ∈ scanWords cs p prev, typoFlag o.word = none) :
    ∀ o ∈ scanWords cs q prev, typoFlag o.word = none := by
  intro o ho
  have hq : scanWords cs q prev = (scanWords cs 0 prev).map (shiftOcc q) := by
    have h2 := scanWords_shift cs 0 q prev
    simpa using h2
  have hp : scanWords cs p prev = (scanWords cs 0 prev).map (shiftOcc p) := by
    have h2 := scanWords_shift cs 0 p prev
    simpa using h2
  rw [hq] at ho
  obtain ⟨o0, ho0, rfl⟩ := List.mem_map.mp ho
  have hmem : shiftOcc p o0 ∈ scanWords cs p prev := by
    rw [hp]
    exact List.mem_map_of_mem _ ho0
  exact h (shiftOcc p o0) hmem

theorem corrections_clean_mem (k v : Str) (hkv : (k, v) ∈ COMMON_TYPOS) :
    ∀ o ∈ extractWords v, typoFlag o.word = none := by
  have h := corrections_clean
  rw [List.all_eq_true] at h
  have h2 := h (k, v) hkv
  rw [List.all_eq_true] at h2
  intro o ho
  have h3 := h2 o ho
  simpa [Option.isNone_iff_eq_none] using h3

theorem typoLookup_mem (k v : Str) (h : typoLookup k = some v) :
    (k, v) ∈ COMMON_TYPOS := by
  rw [typoLookup, List.lookup_eq_some_iff] at h
  obtain ⟨l₁, l₂, heq, _⟩ := h
  rw [heq]
  exact List.mem_append_right _ (List.mem_cons_self _ _)

/-- A word-boundary position splits the scan of the whole text: the
matches strictly before the position are a fixed list, independent of
what the text continues with. -/
theorem scanWords_take_prefix (t : Str) (s : Nat) (hs : s ≤ t.length)
    (hb : s = 0 ∨ isWordChar (t.getD (s - 1) ' ') = false) :
    ∃ W : List WordOcc, ∀ X : Str,
      scanWords (t.take s ++ X) 0 false = W ++ scanWords X s false := by
  by_cases hs0 : s = 0
  · subst hs0
    exact ⟨[], fun X => by simp⟩
  · have hb2 : isWordChar (t.getD (s - 1) ' ') = false := by
      rcases hb with h | h
      · exact absurd h hs0
      · exact h
    have hs1 : s - 1 < t.length := by omega
    refine ⟨scanWords (t.take (s - 1)) 0 false, fun X => ?_⟩
    have htake : t.take s = t.take (s - 1) ++ [t.getD (s - 1) ' '] := by
      have h1 : t.take ((s - 1) + 1) = t.take (s - 1) ++ (t[s - 1]?).toList :=
        List.take_succ
      rw [show (s - 1) + 1 = s from by omega] at h1
      rw [h1, List.getElem?_eq_getElem hs1, List.getD_eq_getElem t ' ' hs1]
      rfl
    rw [htake, List.append_assoc, List.singleton_append]
    rw [scanWords_split_nonword _ hb2 X (t.take (s - 1)) 0 false]
    have harith : 0 + (t.take (s - 1)).length + 1 = s := by
      rw [List.length_take]
      omega
    rw [harith]

theorem typoFlag_some_lookup (w c : Str) (h : typoFlag w = some c) :
    typoLookup (lowerStr w) = some c := by
  unfold typoFlag at h
  by_cases h1 : (decide (w.length ≤ 2) || isNumericWord w || isSingleLetter w) = true
  · rw [if_pos h1] at h; cases h
  · rw [if_neg h1] at h
    by_cases h2 : TECHNICAL_WORDS.contains (lowerStr w) = true
    · rw [if_pos h2] at h; cases h
    · rw [if_neg h2] at h; exact h

/-- Replacing the last-flagged occurrence by its typo correction
removes exactly that finding: the earlier findings are untouched and
the correction introduces no new ones. -/
theorem checkSpelling_replace_last (t : Str) (o : WordOcc)
    (f : SpellCheckResult) (F' : List SpellCheckResult)
    (ho : o ∈ extractWords t) (hcw : checkWord none o = some f)
    (hF : checkSpelling none t = F' ++ [f]) :
    checkSpelling none (applyCorrection t f) = F' := by
  rw [checkWord_none_typoFlag] at hcw
  obtain ⟨corr, hflag, hfeq⟩ := Option.map_eq_some'.mp hcw
  obtain ⟨hge0, hstop, hne, halpha, hstople, hslice⟩ := scanWords_mem_spec t 0 false o ho
  rw [Nat.sub_zero] at hslice
  rw [Nat.zero_add] at hstople
  have hlenne : o.word.length ≠ 0 := by simpa using hne
  have hbL : o.start = 0 ∨ isWordChar (t.getD (o.start - 1) ' ') = false := by
    rcases scanWords_mem_left_boundary t 0 false o ho with ⟨h1, _⟩ | ⟨h1, h2⟩
    · exact Or.inl h1
    · right; simpa using h2
  have hbR : o.stop = t.length ∨ isWordChar (t.getD o.stop ' ') = false := by
    rcases scanWords_mem_right_boundary t 0 false o ho with h1 | h1
    · left; simpa using h1
    · right; simpa using h1
  obtain ⟨W, hW⟩ := scanWords_take_prefix t o.start (by omega) hbL
  have hBok : t.drop o.stop = [] ∨ isWordChar (t.drop o.stop).headI = false := by
    rcases Nat.eq_or_lt_of_le hstople with he2 | hlt2
    · left; rw [he2, List.drop_length]
    · right
      rcases hbR with he2 | hw
      · omega
      · rw [List.drop_eq_getElem_cons hlt2]
        simp only [List.headI]
        rw [List.getD_eq_getElem t ' ' hlt2] at hw
        exact hw
  have hsplitT : t.take o.start ++ (o.word ++ t.drop o.stop) = t := by
    have hlen2 : o.word.length = o.stop - o.start := by omega
    conv_lhs => rw [hslice, hlen2]
    exact take_slice_drop t o.start o.stop (by omega) hstople
  have hWordsT : extractWords t = W ++ (o :: scanWords (t.drop o.stop) o.stop true) := by
    cases hwd : o.word with
    | nil => exact absurd hwd hne
    | cons c w' =>
      have hc : isAlphaChar c = true := by
        rw [hwd] at halpha
        simp only [List.all_cons, Bool.and_eq_true] at halpha
        exact halpha.1
      have hw2 : w'.all isAlphaChar = true := by
        rw [hwd] at halpha
        simp only [List.all_cons, Bool.and_eq_true] at halpha
        exact halpha.2
      have h1 : extractWords t =
          W ++ scanWords (o.word ++ t.drop o.stop) o.start false := by
        rw [extractWords]
        conv_lhs => rw [← hsplitT]
        exact hW (o.word ++ t.drop o.stop)
      rw [h1, hwd, scanWords_run c w' (t.drop o.stop) o.start hc hw2 hBok]
      congr 2
      · cases o with
        | mk ww ss ee =>
          simp only at hwd hstop ⊢
          simp only [WordOcc.mk.injEq]
          refine ⟨hwd.symm, trivial, ?_⟩
          rw [hstop, hwd]
      · rw [show o.start + (c :: w').length = o.stop from by
          rw [hstop, ← hwd]]
  have hFlt := (checkSpelling_spans_ordered none t).2.2
  have hfpos : f.position = ⟨o.start, o.stop⟩ := by rw [← hfeq]
  have hstartlt : o.start < o.stop := by omega
  have hFB : ∀ o2 ∈ scanWords (t.drop o.stop) o.stop true,
      checkWord none o2 = none := by
    intro o2 ho2
    cases hcw2 : checkWord none o2 with
    | none => rfl
    | some r =>
      exfalso
      have hrF : r ∈ checkSpelling none t := by
        rw [checkSpelling, hWordsT]
        refine List.mem_filterMap.mpr ⟨o2, ?_, hcw2⟩
        exact List.mem_append_right _ (List.mem_cons_of_mem _ ho2)
      have hstart : r.position.start = o2.start :=
        (checkWord_some_spec none o2 r hcw2).2.1
      have ho2ge : o.stop ≤ o2.start :=
        (scanWords_mem_spec (t.drop o.stop) o.stop true o2 ho2).1
      rw [hF] at hrF hFlt
      rcases List.mem_append.mp hrF with hr1 | hr2
      · have hlt2 : r.position.start < f.position.start :=
          (List.pairwise_append.mp hFlt).2.2 r hr1 f (List.mem_singleton_self f)
        rw [hfpos] at hlt2
        simp only at hlt2
        omega
      · have hrf : r = f := List.mem_singleton.mp hr2
        rw [hrf, hfpos] at hstart
        simp only at hstart
        omega
  have hfsome : checkWord none o = some f := by
    rw [checkWord_none_typoFlag, hflag]
    exact congrArg some hfeq
  have hFsplit : checkSpelling none t = W.filterMap (checkWord none) ++ [f] := by
    rw [checkSpelling, hWordsT, List.filterMap_append, List.filterMap_cons, hfsome]
    rw [List.filterMap_eq_nil_iff.mpr hFB]
  have hW2 : W.filterMap (checkWord none) = F' :=
    (List.append_left_inj [f]).mp (hFsplit.symm.trans hF)
  have hlook : typoLookup (lowerStr o.word) = some corr :=
    typoFlag_some_lookup _ _ hflag
  have hcorrClean : ∀ o2 ∈ extractWords corr, typoFlag o2.word = none :=
    corrections_clean_mem (lowerStr o.word) corr (typoLookup_mem _ _ hlook)
  have happly : applyCorrection t f =
      t.take o.start ++ corr ++ t.drop o.stop := by
    rw [← hfeq]
    rfl
  have hsuffix : (scanWords (corr ++ t.drop o.stop) o.start false).filterMap
      (checkWord none) = [] := by
    rw [filterMap_checkWord_none_eq_nil]
    cases hBc : t.drop o.stop with
    | nil =>
      simp only [List.append_nil]
      exact scanWords_flag_none_shift corr false 0 o.start hcorrClean
    | cons d B2 =>
      have hd : isWordChar d = false := by
        rcases hBok with h | h
        · rw [hBc] at h; cases h
        · rw [hBc] at h; simpa [List.headI] using h
      rw [scanWords_split_nonword d hd B2 corr o.start false]
      intro o2 ho2
      rcases List.mem_append.mp ho2 with h2 | h2
      · exact scanWords_flag_none_shift corr false 0 o.start hcorrClean o2 h2
      · have hBwords : ∀ o3 ∈ scanWords B2 (o.stop + 1) false,
            typoFlag o3.word = none := by
          intro o3 ho3
          have hmem3 : o3 ∈ scanWords (t.drop o.stop) o.stop true := by
            rw [hBc]
            show o3 ∈ scanWords (d :: B2) o.stop true
            simp only [scanWords]
            rw [if_neg (by simp), hd]
            exact ho3
          have h4 := hFB o3 hmem3
          rw [checkWord_none_typoFlag] at h4
          exact Option.map_eq_none'.mp h4
        exact scanWords_flag_none_shift B2 false (o.stop + 1)
          (o.start + corr.length + 1) hBwords o2 h2
  rw [happly, checkSpelling, extractWords, List.append_assoc,
    hW (corr ++ t.drop o.stop), List.filterMap_append, hW2, hsuffix,
    List.append_nil]

/-- In typo-rule-only mode a single auto-correct pass removes every
finding. -/
theorem autoCorrectText_none_clean (t : Str) :
    checkSpelling none (autoCorrectText none t) = [] := by
  suffices h : ∀ n t, (checkSpelling none t).length = n →
      checkSpelling none (autoCorrectText none t) = [] from h _ t rfl
  intro n
  induction n with
  | zero =>
    intro t ht
    rw [List.length_eq_zero] at ht
    rw [autoCorrectText, ht]
    exact ht
  | succ m ih =>
    intro t ht
    have hFlt := (checkSpelling_spans_ordered none t).2.2
    have hrev : sortErrorsDesc (checkSpelling none t) =
        (checkSpelling none t).reverse :=
      sortErrorsDesc_of_ascending _ hFlt
    cases hFr : (checkSpelling none t).reverse with
    | nil =>
      exfalso
      have h2 : checkSpelling none t = [] := by
        have := congrArg List.reverse hFr
        rwa [List.reverse_reverse] at this
      rw [h2] at ht
      simp at ht
    | cons f R =>
      have hFeq : checkSpelling none t = R.reverse ++ [f] := by
        have h2 := congrArg List.reverse hFr
        rw [List.reverse_reverse] at h2
        rw [h2, List.reverse_cons]
      have hfF : f ∈ checkSpelling none t := by
        rw [hFeq]
        exact List.mem_append_right _ (List.mem_singleton_self f)
      rw [checkSpelling] at hfF
      obtain ⟨o, hoMem, hcwo⟩ := List.mem_filterMap.mp hfF
      have hreplace := checkSpelling_replace_last t o f R.reverse hoMem hcwo hFeq
      rw [autoCorrectText, hrev, hFr, List.foldl_cons]
      have hlen2 : (checkSpelling none (applyCorrection t f)).length = m := by
        rw [hreplace]
        have h3 := congrArg List.length hFeq
        rw [ht] at h3
        simp only [List.length_append, List.length_reverse,
          List.length_singleton] at h3
        simp only [List.length_reverse]
        omega
      have hIH := ih (applyCorrection t f) hlen2
      rw [autoCorrectText] at hIH
      have hasc2 := (checkSpelling_spans_ordered none (applyCorrection t f)).2.2
      have hsort2 : sortErrorsDesc (checkSpelling none (applyCorrection t f)) =
          (checkSpelling none (applyCorrection t f)).reverse :=
        sortErrorsDesc_of_ascending _ hasc2
      rw [hsort2, hreplace, List.reverse_reverse] at hIH
      exact hIH

/-- C5 (amended): `autoCorrect` is idempotent in typo-rule-only mode
(no dictionary loaded): a second application changes nothing. -/
theorem autoCorrectText_none_idempotent (t : Str) :
    autoCorrectText none (autoCorrectText none t) = autoCorrectText none t := by
  conv_lhs => rw [autoCorrectText, autoCorrectText_none_clean t]
  rfl

/-- C5 counterexample: with a dictionary backend whose suggestions
oscillate (`abc` ↦ `abd` ↦ `abc`, both unknown), two applications of
`autoCorrectText` differ — idempotence depends on the behaviour of the
opaque dictionary and does not hold for every input. -/
theorem autoCorrectText_not_idempotent_with_dictionary :
    autoCorrectText (some ⟨fun _ => false,
      fun w => if w = "abc".toList then ["abd".toList] else ["abc".toList]⟩)
      (autoCorrectText (some ⟨fun _ => false,
        fun w => if w = "abc".toList then ["abd".toList] else ["abc".toList]⟩)
        "abc".toList) ≠
    autoCorrectText (some ⟨fun _ => false,
      fun w => if w = "abc".toList then ["abd".toList] else ["abc".toList]⟩)
      "abc".toList := by
  decide
